import Mathlib

/-!
Verification of the template AST and PEG parser of the awless template
package. All definitions are shallow embeddings of the Go source file
template/ast/ast.go: the semantic AST model with its builder operations,
hole and reference resolution, cloning and rendering, together with the
generated PEG parsing functions and their backtracking state.
-/

namespace Awless

/-- Values held in Go interface slots: the package stores strings and machine
ints in parameter maps and identifier values. -/
inductive GoVal where
  | str (s : String)
  | int (n : Int)
deriving DecidableEq

/-- Rendering of a value with the Go percent-v verb. -/
def goValString : GoVal → String
  | .str s => s
  | .int n => toString n

/-- Rendering of an optional value: a nil interface prints with the Go
percent-v verb as the angle-bracketed nil form. -/
def optValString : Option GoVal → String
  | none => "<nil>"
  | some v => goValString v

/-- A Go map from strings is modelled as an association list; all maps built
by the package have unique keys, which the lemmas track explicitly. -/
abbrev AMap (α : Type) := List (String × α)

/-- Map lookup, as in a Go map read. -/
def mlookup {α : Type} : AMap α → String → Option α
  | [], _ => none
  | (k, v) :: rest, key => if k = key then some v else mlookup rest key

/-- Map write, as in a Go map assignment: replace the binding in place when
the key is present, append it otherwise. -/
def mset {α : Type} : AMap α → String → α → AMap α
  | [], key, val => [(key, val)]
  | (k, v) :: rest, key, val =>
      if k = key then (k, val) :: rest else (k, v) :: mset rest key val

/-- Map delete, as in the Go builtin delete. -/
def mdel {α : Type} : AMap α → String → AMap α
  | [], _ => []
  | (k, v) :: rest, key =>
      if k = key then mdel rest key else (k, v) :: mdel rest key

/-- The keys of a map. -/
def mkeys {α : Type} (m : AMap α) : List String := m.map Prod.fst

/-- Unique-keys property maintained by every map the package builds. -/
abbrev NodupK {α : Type} (m : AMap α) : Prop := (mkeys m).Nodup

/-- Reading an optional (possibly nil) Go map: ranging or indexing a nil map
behaves like an empty one. -/
def oList {α : Type} : Option (AMap α) → AMap α
  | none => []
  | some m => m

/-- IdentifierNode: a name plus an optional resolved value. -/
structure IdentifierNode where
  ident : String
  val : Option GoVal
deriving DecidableEq

/-- IdentifierNode.clone. -/
def cloneIdent (n : IdentifierNode) : IdentifierNode :=
  { ident := n.ident, val := n.val }

/-- VarNode: binds an identifier to a value or to a named hole. -/
structure VarNode where
  i : IdentifierNode
  hole : AMap String
deriving DecidableEq

/-- ExpressionNode: action and entity keywords plus the four parameter maps.
Each map is optional because the Go struct fields start as nil maps and are
only allocated by AddParamKey, ProcessHoles, ProcessRefs or clone. -/
structure ExpressionNode where
  action : String
  entity : String
  refs : Option (AMap String)
  params : Option (AMap GoVal)
  aliases : Option (AMap String)
  holes : Option (AMap String)
deriving DecidableEq

/-- The node variants implementing the Node interface. -/
inductive Node where
  | ident (n : IdentifierNode)
  | var (n : VarNode)
  | decl (left : IdentifierNode) (right : ExpressionNode)
  | expr (n : ExpressionNode)
deriving DecidableEq

/-- VarNode.clone: copies the identifier but installs a fresh empty Hole map,
exactly as the source builds the literal with a bare make call. -/
def cloneVar (n : VarNode) : VarNode :=
  { i := cloneIdent n.i, hole := [] }

/-- ExpressionNode.clone: fresh maps with every entry copied over. -/
def cloneExpr (n : ExpressionNode) : ExpressionNode :=
  { action := n.action, entity := n.entity,
    refs := some (oList n.refs),
    params := some (oList n.params),
    aliases := some (oList n.aliases),
    holes := some (oList n.holes) }

/-- Node.clone dispatched over the variants. -/
def cloneNode : Node → Node
  | .ident n => .ident (cloneIdent n)
  | .var n => .var (cloneVar n)
  | .decl l r => .decl (cloneIdent l) (cloneExpr r)
  | .expr n => .expr (cloneExpr n)

/-- Ascending lexicographic sort, as sort.Strings. -/
def sortStrings (l : List String) : List String := l.insertionSort (· ≤ ·)

/-- The sortAndMap helper: sort the keys, then render each binding with the
supplied formatter. The none branch of the lookup mirrors the defensive
empty-string branch of sortAndMapString and is unreachable for keys taken
from the map itself. -/
def sortAndMap {α : Type} (m : AMap α) (fn : String → α → String) : List String :=
  (sortStrings (mkeys m)).map fun k =>
    match mlookup m k with
    | some v => fn k v
    | none => ""

/-- The four token lists of ExpressionNode.String in emission order:
refs, params, aliases, holes, each with its marker. -/
def exprTokens (n : ExpressionNode) : List String :=
  sortAndMap (oList n.refs) (fun k v => k ++ "=$" ++ v)
    ++ sortAndMap (oList n.params) (fun k v => k ++ "=" ++ goValString v)
    ++ sortAndMap (oList n.aliases) (fun k v => k ++ "=@" ++ v)
    ++ sortAndMap (oList n.holes) (fun k v => k ++ "=\x7b" ++ v ++ "\x7d")

/-- ExpressionNode.String: action, entity, then every parameter token,
with the combined token list sorted before joining. -/
def exprString (n : ExpressionNode) : String :=
  n.action ++ " " ++ n.entity ++ " " ++ String.intercalate " " (sortStrings (exprTokens n))

/-- Node.String dispatched over the variants. -/
def nodeString : Node → String
  | .ident n => n.ident
  | .var n => "var " ++ n.i.ident ++ " = " ++ optValString n.i.val
  | .decl l r => l.ident ++ " = " ++ exprString r
  | .expr n => exprString n

/-- Statement: wraps one node plus the executor-filled result and error slots
and the source line. -/
structure Statement where
  node : Node
  result : Option GoVal
  line : String
  err : Option String
deriving DecidableEq

/-- Statement.clone: a zero-valued statement whose Node, Result and Err are
filled from the source; the Line field keeps the zero value. -/
def cloneStatement (s : Statement) : Statement :=
  { node := cloneNode s.node, result := s.result, line := "", err := s.err }

/-- The AST: ordered statements plus the builder cursor. The current
statement pointer is modelled as an index into the statement list. -/
structure AST where
  statements : List Statement
  currentStatement : Option Nat
  currentKey : String
deriving DecidableEq

/-- AST.String: join the per-statement renderings with newlines. -/
def astString (a : AST) : String :=
  String.intercalate "\n" (a.statements.map fun st => nodeString st.node)

/-- AST.Clone: a fresh AST with every statement cloned, in order; the builder
cursor of the clone keeps the zero values. -/
def cloneAST (a : AST) : AST :=
  { statements := a.statements.map cloneStatement,
    currentStatement := none, currentKey := "" }

/-- Whether a node is a Var node, as the type switch in ExecutionStatements. -/
def isVarNode : Node → Bool
  | .var _ => true
  | _ => false

/-- The loop body of AST.ExecutionStatements: skip Var statements, append the
rest in order. -/
def execStatementsGo : List Statement → List Statement
  | [] => []
  | st :: rest =>
      if isVarNode st.node then execStatementsGo rest
      else st :: execStatementsGo rest

/-- AST.ExecutionStatements. -/
def executionStatements (a : AST) : List Statement :=
  execStatementsGo a.statements

/-! Fatal conditions of the builder: Go panics are modelled as errors. -/

/-- The panic conditions raised by the builder and the typed-literal parsers. -/
inductive ExecErr where
  | wrongNodeType
  | nilAccess
  | nilMapWrite
  | invalidInt (text : String)
  | invalidIp (text : String)
  | invalidCidr (text : String)
deriving DecidableEq

/-- ASCII digit test. -/
def isDigitCh (c : Char) : Bool := decide ('0' ≤ c) && decide (c ≤ '9')

/-- Decimal value of a digit run. -/
def digitsToNat (cs : List Char) : Nat :=
  cs.foldl (fun n c => 10 * n + (c.toNat - Char.toNat '0')) 0

/-- strconv.Atoi: an optional sign followed by one or more digits, with the
64-bit range check; anything else is an error. -/
def atoi (s : String) : Option Int :=
  match s.data with
  | [] => none
  | c :: rest =>
    let neg : Bool := c = '-'
    let digits := if c = '-' ∨ c = '+' then rest else c :: rest
    if digits = [] then none
    else if digits.all isDigitCh then
      let v : Int := if neg then -(digitsToNat digits : Int) else (digitsToNat digits : Int)
      if -(2 ^ 63) ≤ v ∧ v ≤ 2 ^ 63 - 1 then some v else none
    else none

/-- parseInt: Atoi with a fatal error on failure. -/
def parseIntE (text : String) : Except ExecErr Int :=
  match atoi text with
  | some n => .ok n
  | none => .error (.invalidInt text)

/-- One decimal field of a dotted quad: digits only, no leading zero unless
the field is exactly 0, value at most 255. -/
def ipField (cs : List Char) : Option Nat :=
  match cs with
  | [] => none
  | c :: rest =>
    if (c :: rest).all isDigitCh then
      if c = '0' ∧ rest ≠ [] then none
      else if digitsToNat (c :: rest) ≤ 255 then some (digitsToNat (c :: rest)) else none
    else none

/-- Split a character list at every dot. -/
def splitDots : List Char → List (List Char)
  | [] => [[]]
  | c :: rest =>
      if c = '.' then [] :: splitDots rest
      else
        match splitDots rest with
        | f :: fs => (c :: f) :: fs
        | [] => [[c]]

/-- Dotted-quad parse used by net.ParseIP and net.ParseCIDR. Texts reaching
the IP branch are captures of the IpValue rule, digit runs separated by
three arbitrary characters, and no such text forms a well-formed IPv6
literal, so the IPv6 branch of net.ParseIP never accepts and is modelled as
failure. -/
def parseIp4 (s : String) : Option (Nat × Nat × Nat × Nat) :=
  match (splitDots s.data).map ipField with
  | [some a, some b, some c, some d] => some (a, b, c, d)
  | _ => none

/-- Canonical rendering of a dotted quad. -/
def renderIp4 (a b c d : Nat) : String :=
  toString a ++ "." ++ toString b ++ "." ++ toString c ++ "." ++ toString d

/-- parseIP: canonical string of the parsed address, fatal error otherwise. -/
def parseIPE (text : String) : Except ExecErr String :=
  match parseIp4 text with
  | some (a, b, c, d) => .ok (renderIp4 a b c d)
  | none => .error (.invalidIp text)

/-- Split at the first slash, as net.ParseCIDR does. -/
def splitSlash : List Char → Option (List Char × List Char)
  | [] => none
  | c :: rest =>
      if c = '/' then some ([], rest)
      else
        match splitSlash rest with
        | some (l, r) => some (c :: l, r)
        | none => none

/-- The prefix-length field of a CIDR: digits only, no leading zero, at most
32 for a dotted-quad address. -/
def cidrPrefix (cs : List Char) : Option Nat :=
  match cs with
  | [] => none
  | c :: rest =>
    if (c :: rest).all isDigitCh then
      if c = '0' ∧ rest ≠ [] then none
      else if digitsToNat (c :: rest) ≤ 32 then some (digitsToNat (c :: rest)) else none
    else none

/-- parseCIDR: address and prefix validated, then the network is masked and
rendered canonically; fatal error otherwise. -/
def parseCIDRE (text : String) : Except ExecErr String :=
  match splitSlash text.data with
  | none => .error (.invalidCidr text)
  | some (ipPart, prePart) =>
    match parseIp4 (String.mk ipPart), cidrPrefix prePart with
    | some (a, b, c, d), some n =>
        let ip32 := ((a * 256 + b) * 256 + c) * 256 + d
        let host := 2 ^ (32 - n)
        let net32 := ip32 - ip32 % host
        .ok (renderIp4 (net32 / 2 ^ 24 % 256) (net32 / 2 ^ 16 % 256)
              (net32 / 2 ^ 8 % 256) (net32 % 256) ++ "/" ++ toString n)
    | _, _ => .error (.invalidCidr text)

/-! Hole and reference resolution. -/

/-- Loop of VarNode.ProcessHoles over a snapshot of the Hole entries. The Go
loop ranges over the live map deleting only the entry at hand, so on a
unique-keyed map the snapshot fold computes the same result for every
iteration order. Note that the processed map is keyed by the hole name. -/
def varPHGo : List (String × String) → VarNode → AMap GoVal → AMap GoVal → VarNode × AMap GoVal
  | [], n, _, acc => (n, acc)
  | (key, hole) :: rest, n, fills, acc =>
      match mlookup fills hole with
      | some val =>
          varPHGo rest
            { i := { ident := n.i.ident, val := some val }, hole := mdel n.hole key }
            fills (mset acc hole val)
      | none => varPHGo rest n fills acc

/-- VarNode.ProcessHoles. -/
def varProcessHoles (n : VarNode) (fills : AMap GoVal) : VarNode × AMap GoVal :=
  varPHGo n.hole n fills []

/-- Loop of ExpressionNode.ProcessHoles: a matched hole moves the fill value
into Params (allocating it when nil), deletes the key from Holes, and
records the processed pair keyed by the parameter key. -/
def exprPHGo : List (String × String) → ExpressionNode → AMap GoVal → AMap GoVal → ExpressionNode × AMap GoVal
  | [], e, _, acc => (e, acc)
  | (key, hole) :: rest, e, fills, acc =>
      match mlookup fills hole with
      | some val =>
          exprPHGo rest
            { e with params := some (mset (oList e.params) key val),
                     holes := Option.map (fun m => mdel m key) e.holes }
            fills (mset acc key val)
      | none => exprPHGo rest e fills acc

/-- ExpressionNode.ProcessHoles. -/
def exprProcessHoles (e : ExpressionNode) (fills : AMap GoVal) : ExpressionNode × AMap GoVal :=
  exprPHGo (oList e.holes) e fills []

/-- Loop of ExpressionNode.ProcessRefs: same motion on the Refs map, with no
processed result. -/
def exprPRGo : List (String × String) → ExpressionNode → AMap GoVal → ExpressionNode
  | [], e, _ => e
  | (key, ref) :: rest, e, fills =>
      match mlookup fills ref with
      | some val =>
          exprPRGo rest
            { e with params := some (mset (oList e.params) key val),
                     refs := Option.map (fun m => mdel m key) e.refs }
            fills
      | none => exprPRGo rest e fills

/-- ExpressionNode.ProcessRefs. -/
def exprProcessRefs (e : ExpressionNode) (fills : AMap GoVal) : ExpressionNode :=
  exprPRGo (oList e.refs) e fills

/-! Builder operations on the AST. -/

/-- A bare ExpressionNode literal: empty keywords, nil maps. -/
def emptyExpr : ExpressionNode :=
  { action := "", entity := "", refs := none, params := none, aliases := none, holes := none }

/-- The statement the builder cursor points at, if any. -/
def getStmt (a : AST) : Option Statement :=
  a.currentStatement.bind fun i => a.statements.get? i

/-- Write back the statement under the cursor. -/
def putStmt (a : AST) (st : Statement) : AST :=
  match a.currentStatement with
  | none => a
  | some i => { a with statements := a.statements.set i st }

/-- AST.currentExpression: nil when no statement is open, the expression of
an Expression or Declaration statement, and a panic on any other variant. -/
def currentExpr (a : AST) : Except ExecErr (Option ExpressionNode) :=
  match getStmt a with
  | none => .ok none
  | some st =>
    match st.node with
    | .expr e => .ok (some e)
    | .decl _ r => .ok (some r)
    | _ => .error .wrongNodeType

/-- Store the mutated current expression back into the current statement. -/
def putExpr (a : AST) (e : ExpressionNode) : AST :=
  match getStmt a with
  | some st =>
    match st.node with
    | .expr _ => putStmt a { st with node := .expr e }
    | .decl l _ => putStmt a { st with node := .decl l e }
    | _ => a
  | none => a

/-- AST.currentVarDecl: nil when no statement is open, the Var node when one
is current, and a panic on any other variant. -/
def currentVar (a : AST) : Except ExecErr (Option VarNode) :=
  match getStmt a with
  | none => .ok none
  | some st =>
    match st.node with
    | .var v => .ok (some v)
    | _ => .error .wrongNodeType

/-- Store the mutated current Var node back into the current statement. -/
def putVar (a : AST) (v : VarNode) : AST :=
  match getStmt a with
  | some st =>
    match st.node with
    | .var _ => putStmt a { st with node := .var v }
    | _ => a
  | none => a

/-- AST.addStatement: append a fresh statement and point the cursor at it. -/
def addStatement (n : Node) (a : AST) : AST :=
  { statements := a.statements ++ [{ node := n, result := none, line := "", err := none }],
    currentStatement := some a.statements.length,
    currentKey := a.currentKey }

/-- AST.AddAction: open a bare Expression statement when none is current,
set the Action keyword otherwise. -/
def addAction (text : String) (a : AST) : Except ExecErr AST := do
  match ← currentExpr a with
  | none => .ok (addStatement (.expr { emptyExpr with action := text }) a)
  | some e => .ok (putExpr a { e with action := text })

/-- AST.AddEntity: dereferences the current expression, a panic when nil. -/
def addEntity (text : String) (a : AST) : Except ExecErr AST := do
  match ← currentExpr a with
  | none => .error .nilAccess
  | some e => .ok (putExpr a { e with entity := text })

/-- AST.AddDeclarationIdentifier: open a Declaration statement with an empty
inner expression. -/
def addDeclarationIdentifier (text : String) (a : AST) : AST :=
  addStatement (.decl { ident := text, val := none } emptyExpr) a

/-- AST.LineDone: close the current statement and clear the current key. -/
def lineDone (a : AST) : AST :=
  { a with currentStatement := none, currentKey := "" }

/-- AST.AddVarIdentifier: open a Var statement with a fresh Hole map. -/
def addVarIdentifier (text : String) (a : AST) : AST :=
  addStatement (.var { i := { ident := text, val := none }, hole := [] }) a

/-- Run a mutation against the current Var node; nil dereference panic when
no statement is current. -/
def withVar (a : AST) (f : VarNode → Except ExecErr VarNode) : Except ExecErr AST := do
  match ← currentVar a with
  | none => .error .nilAccess
  | some v => .ok (putVar a (← f v))

/-- AST.AddVarValue. -/
def addVarValue (text : String) (a : AST) : Except ExecErr AST :=
  withVar a fun v => .ok { v with i := { ident := v.i.ident, val := some (.str text) } }

/-- AST.AddVarIntValue. -/
def addVarIntValue (text : String) (a : AST) : Except ExecErr AST :=
  withVar a fun v => do
    .ok { v with i := { ident := v.i.ident, val := some (.int (← parseIntE text)) } }

/-- AST.AddVarCidrValue. -/
def addVarCidrValue (text : String) (a : AST) : Except ExecErr AST :=
  withVar a fun v => do
    .ok { v with i := { ident := v.i.ident, val := some (.str (← parseCIDRE text)) } }

/-- AST.AddVarIpValue. -/
def addVarIpValue (text : String) (a : AST) : Except ExecErr AST :=
  withVar a fun v => do
    .ok { v with i := { ident := v.i.ident, val := some (.str (← parseIPE text)) } }

/-- AST.AddVarHoleValue: the Hole entry is keyed by the bound identifier. -/
def addVarHoleValue (text : String) (a : AST) : Except ExecErr AST :=
  withVar a fun v => .ok { v with hole := mset v.hole v.i.ident text }

/-- Body of AddParamKey on the current expression: allocate all four maps
when Params is nil, and report the new current key. -/
def addParamKeyE (text : String) (e : ExpressionNode) : ExpressionNode × String :=
  (if e.params = none then
      { e with refs := some [], params := some [], aliases := some [], holes := some [] }
    else e, text)

/-- Write into Params; assigning through a nil map is a runtime panic. -/
def setParamE (key : String) (v : GoVal) (e : ExpressionNode) : Except ExecErr ExpressionNode :=
  match e.params with
  | none => .error .nilMapWrite
  | some m => .ok { e with params := some (mset m key v) }

/-- Write into Refs; assigning through a nil map is a runtime panic. -/
def setRefE (key : String) (v : String) (e : ExpressionNode) : Except ExecErr ExpressionNode :=
  match e.refs with
  | none => .error .nilMapWrite
  | some m => .ok { e with refs := some (mset m key v) }

/-- Write into Aliases; assigning through a nil map is a runtime panic. -/
def setAliasE (key : String) (v : String) (e : ExpressionNode) : Except ExecErr ExpressionNode :=
  match e.aliases with
  | none => .error .nilMapWrite
  | some m => .ok { e with aliases := some (mset m key v) }

/-- Write into Holes; assigning through a nil map is a runtime panic. -/
def setHoleE (key : String) (v : String) (e : ExpressionNode) : Except ExecErr ExpressionNode :=
  match e.holes with
  | none => .error .nilMapWrite
  | some m => .ok { e with holes := some (mset m key v) }

/-- Run a mutation against the current expression; nil dereference panic
when no statement is current. -/
def withExpr (a : AST) (f : ExpressionNode → Except ExecErr ExpressionNode) : Except ExecErr AST := do
  match ← currentExpr a with
  | none => .error .nilAccess
  | some e => .ok (putExpr a (← f e))

/-- AST.AddParamKey. -/
def addParamKey (text : String) (a : AST) : Except ExecErr AST := do
  match ← currentExpr a with
  | none => .error .nilAccess
  | some e =>
    let p := addParamKeyE text e
    .ok { putExpr a p.1 with currentKey := p.2 }

/-- AST.AddParamValue. -/
def addParamValue (text : String) (a : AST) : Except ExecErr AST :=
  withExpr a (setParamE a.currentKey (.str text))

/-- AST.AddParamIntValue. -/
def addParamIntValue (text : String) (a : AST) : Except ExecErr AST :=
  withExpr a fun e => do setParamE a.currentKey (.int (← parseIntE text)) e

/-- AST.AddParamCidrValue. -/
def addParamCidrValue (text : String) (a : AST) : Except ExecErr AST :=
  withExpr a fun e => do setParamE a.currentKey (.str (← parseCIDRE text)) e

/-- AST.AddParamIpValue. -/
def addParamIpValue (text : String) (a : AST) : Except ExecErr AST :=
  withExpr a fun e => do setParamE a.currentKey (.str (← parseIPE text)) e

/-- AST.AddParamRefValue. -/
def addParamRefValue (text : String) (a : AST) : Except ExecErr AST :=
  withExpr a (setRefE a.currentKey text)

/-- AST.AddParamAliasValue. -/
def addParamAliasValue (text : String) (a : AST) : Except ExecErr AST :=
  withExpr a (setAliasE a.currentKey text)

/-- AST.AddParamHoleValue. -/
def addParamHoleValue (text : String) (a : AST) : Except ExecErr AST :=
  withExpr a (setHoleE a.currentKey text)

/-! The generated PEG parser: rule kinds, spans, parsing state and the rule
functions, mirroring the goto-structured generated code. -/

/-- The rule kinds of the generated parser; a0 to a21 are the semantic
action markers. -/
inductive PegRule where
  | unknown | script | statement | action | entity | varDeclaration | declaration
  | expr | params | param | identifier | value | varValue | stringValue
  | cidrValue | ipValue | intValue | intRangeValue | refValue | aliasValue
  | holeValue | comment | spacing | whiteSpacing | mustWhiteSpacing | equal
  | var | space | whitespace | endOfLine | endOfFile | pegText
  | a0 | a1 | a2 | a3 | a4 | a5 | a6 | a7 | a8 | a9 | a10 | a11 | a12 | a13
  | a14 | a15 | a16 | a17 | a18 | a19 | a20 | a21
deriving DecidableEq

/-- A recorded span: rule kind and half-open offsets. -/
structure Token where
  rule : PegRule
  b : Nat
  e : Nat
deriving DecidableEq

/-- The shared parser state: position, token index, the token store and the
furthest-failure span. Failure exits restore position and token index but
never the token store or the failure span. -/
structure PState where
  position : Nat
  tokenIndex : Nat
  tree : List Token
  max : Token
deriving DecidableEq

/-- tokens32.Add: store the span at the token index. The Go backing array is
pre-sized and only the prefix up to the token index is ever observed after
trimming, so the list models exactly that prefix. -/
def treeSet (t : List Token) (i : Nat) (tok : Token) : List Token :=
  if i < t.length then t.set i tok else t ++ [tok]

/-- The add helper of the generated parser: record a span, bump the token
index, and track the furthest-reaching non-empty span for error reports. -/
def addTok (r : PegRule) (begin : Nat) (s : PState) : PState :=
  { position := s.position,
    tokenIndex := s.tokenIndex + 1,
    tree := treeSet s.tree s.tokenIndex ⟨r, begin, s.position⟩,
    max := if begin ≠ s.position ∧ s.max.e < s.position then ⟨r, begin, s.position⟩ else s.max }

/-- A rule function of the generated parser. -/
abbrev RuleFn := PState → Bool × PState

/-- The character at an offset; none stands for the appended end sentinel. -/
def peek? (buf : List Char) (i : Nat) : Option Char := buf.get? i

/-- matchDot: any character short of the sentinel. -/
def matchDot (buf : List Char) : RuleFn := fun s =>
  match peek? buf s.position with
  | some _ => (true, { s with position := s.position + 1 })
  | none => (false, s)

/-- A single-character match. -/
def matchChar (buf : List Char) (c : Char) : RuleFn := fun s =>
  match peek? buf s.position with
  | some d => if d = c then (true, { s with position := s.position + 1 }) else (false, s)
  | none => (false, s)

/-- A character-class match. -/
def matchClass (buf : List Char) (p : Char → Bool) : RuleFn := fun s =>
  match peek? buf s.position with
  | some d => if p d then (true, { s with position := s.position + 1 }) else (false, s)
  | none => (false, s)

/-- Sequencing: on a failure of the second part the position and the token
index are rolled back to the entry of the sequence, as the goto targets do;
the token store and the failure span keep their mutations. -/
def pseq (f g : RuleFn) : RuleFn := fun s =>
  let r1 := f s
  if r1.1 then
    let r2 := g r1.2
    if r2.1 then (true, r2.2)
    else (false, { r2.2 with position := s.position, tokenIndex := s.tokenIndex })
  else (false, r1.2)

/-- Ordered choice: the second alternative starts from the restored state
left by the failure of the first. -/
def pchoice (f g : RuleFn) : RuleFn := fun s =>
  let r1 := f s
  if r1.1 then (true, r1.2) else g r1.2

/-- Fueled greedy repetition; every loop body of this grammar consumes at
least one character on success, so the fuel supplied by pstar never runs
out before the body fails. -/
def pstarAux (f : RuleFn) : Nat → PState → Bool × PState
  | 0, s => (true, s)
  | fuel + 1, s =>
      let r := f s
      if r.1 then pstarAux f fuel r.2 else (true, r.2)

/-- Greedy star. -/
def pstar (buf : List Char) (f : RuleFn) : RuleFn := fun s =>
  pstarAux f (buf.length + 1 - s.position) s

/-- Greedy plus: the body once, then the star. -/
def pplus (buf : List Char) (f : RuleFn) : RuleFn := pseq f (pstar buf f)

/-- Optional part: always succeeds, keeping the restored state on failure. -/
def popt (f : RuleFn) : RuleFn := fun s => (true, (f s).2)

/-- Negative lookahead: restore on probe success, succeed on probe failure
from the state the probe already restored. -/
def pneg (f : RuleFn) : RuleFn := fun s =>
  let r := f s
  if r.1 then (false, { r.2 with position := s.position, tokenIndex := s.tokenIndex })
  else (true, r.2)

/-- A named rule: record the rule span over its extent on success, restore
position and token index on failure. -/
def mkRule (r : PegRule) (body : RuleFn) : RuleFn := fun s =>
  let res := body s
  if res.1 then (true, addTok r s.position res.2)
  else (false, { res.2 with position := s.position, tokenIndex := s.tokenIndex })

/-- A text capture: the body followed by a PegText span over its extent. -/
def capture (body : RuleFn) : RuleFn := fun s =>
  let res := body s
  if res.1 then (true, addTok .pegText s.position res.2) else (false, res.2)

/-- An action marker: an empty span recorded at the current position. -/
def actTok (r : PegRule) : RuleFn := fun s => (true, addTok r s.position s)

/-- A literal keyword: consecutive single-character matches. -/
def litChars (buf : List Char) : List Char → RuleFn
  | [] => fun s => (true, s)
  | c :: cs => pseq (matchChar buf c) (litChars buf cs)

/-- A literal keyword from a string. -/
def lit (buf : List Char) (str : String) : RuleFn := litChars buf str.data

/-- Identifier characters: letters, dash, underscore, dot. -/
def isIdentCh (c : Char) : Bool :=
  c = '.' || c = '_' || c = '-' ||
  (decide ('A' ≤ c) && decide (c ≤ 'Z')) || (decide ('a' ≤ c) && decide (c ≤ 'z'))

/-- StringValue characters: alphanumerics plus dash dot underscore colon
slash. -/
def isStringCh (c : Char) : Bool :=
  c = '/' || c = ':' || c = '_' || c = '.' || c = '-' || isDigitCh c ||
  (decide ('A' ≤ c) && decide (c ≤ 'Z')) || (decide ('a' ≤ c) && decide (c ≤ 'z'))

/-- The opening brace character. -/
def lbrace : Char := Char.ofNat 123

/-- The closing brace character. -/
def rbrace : Char := Char.ofNat 125

/-- Rule 27, Whitespace. -/
def ruleWhitespace (buf : List Char) : RuleFn :=
  mkRule .whitespace (pchoice (matchChar buf ' ') (matchChar buf '\t'))

/-- Rule 28, EndOfLine. -/
def ruleEndOfLine (buf : List Char) : RuleFn :=
  mkRule .endOfLine (pchoice (lit buf "\r\n") (pchoice (matchChar buf '\n') (matchChar buf '\r')))

/-- Rule 26, Space. -/
def ruleSpace (buf : List Char) : RuleFn :=
  mkRule .space (pchoice (ruleWhitespace buf) (ruleEndOfLine buf))

/-- Rule 21, Spacing. -/
def ruleSpacing (buf : List Char) : RuleFn :=
  mkRule .spacing (pstar buf (ruleSpace buf))

/-- Rule 22, WhiteSpacing. -/
def ruleWhiteSpacing (buf : List Char) : RuleFn :=
  mkRule .whiteSpacing (pstar buf (ruleWhitespace buf))

/-- Rule 23, MustWhiteSpacing. -/
def ruleMustWhiteSpacing (buf : List Char) : RuleFn :=
  mkRule .mustWhiteSpacing (pplus buf (ruleWhitespace buf))

/-- Rule 24, Equal. -/
def ruleEqual (buf : List Char) : RuleFn :=
  mkRule .equal (pseq (ruleSpacing buf) (pseq (matchChar buf '=') (ruleSpacing buf)))

/-- Rule 9, Identifier. -/
def ruleIdentifier (buf : List Char) : RuleFn :=
  mkRule .identifier (pplus buf (matchClass buf isIdentCh))

/-- Rule 12, StringValue. -/
def ruleStringValue (buf : List Char) : RuleFn :=
  mkRule .stringValue (pplus buf (matchClass buf isStringCh))

/-- A nonempty digit run. -/
def digitRun (buf : List Char) : RuleFn := pplus buf (matchClass buf isDigitCh)

/-- Rule 13, CidrValue. The separators between the digit runs are the PEG
any-character matcher, not a literal dot. -/
def ruleCidrValue (buf : List Char) : RuleFn :=
  mkRule .cidrValue (pseq (digitRun buf) (pseq (matchDot buf) (pseq (digitRun buf)
    (pseq (matchDot buf) (pseq (digitRun buf) (pseq (matchDot buf) (pseq (digitRun buf)
      (pseq (matchChar buf '/') (digitRun buf)))))))))

/-- Rule 14, IpValue; the separators are the any-character matcher. -/
def ruleIpValue (buf : List Char) : RuleFn :=
  mkRule .ipValue (pseq (digitRun buf) (pseq (matchDot buf) (pseq (digitRun buf)
    (pseq (matchDot buf) (pseq (digitRun buf) (pseq (matchDot buf) (digitRun buf)))))))

/-- Rule 15, IntValue. -/
def ruleIntValue (buf : List Char) : RuleFn := mkRule .intValue (digitRun buf)

/-- Rule 16, IntRangeValue. -/
def ruleIntRange (buf : List Char) : RuleFn :=
  mkRule .intRangeValue (pseq (digitRun buf) (pseq (matchChar buf '-') (digitRun buf)))

/-- Rule 19, HoleValue. -/
def ruleHoleValue (buf : List Char) : RuleFn :=
  mkRule .holeValue (pseq (matchChar buf lbrace) (pseq (ruleWhiteSpacing buf)
    (pseq (capture (ruleIdentifier buf)) (pseq (ruleWhiteSpacing buf) (matchChar buf rbrace)))))

/-- The switch arm of the Action keyword: the first character selects the
candidate keyword; the default case tries the stop keyword. -/
def actionSwitch (buf : List Char) : RuleFn := fun s =>
  match peek? buf s.position with
  | some 'd' => lit buf "detach" s
  | some 'c' => lit buf "check" s
  | some 'a' => lit buf "attach" s
  | some 'u' => lit buf "update" s
  | _ => lit buf "stop" s

/-- Rule 2, Action. -/
def actionKw (buf : List Char) : RuleFn :=
  mkRule .action (pchoice (lit buf "create") (pchoice (lit buf "delete")
    (pchoice (lit buf "start") (actionSwitch buf))))

/-- The switch arm of the Entity keyword. -/
def entitySwitch (buf : List Char) : RuleFn := fun s =>
  match peek? buf s.position with
  | some 's' => lit buf "storageobject" s
  | some 'b' => lit buf "bucket" s
  | some 'r' => lit buf "route" s
  | some 'i' => lit buf "internetgateway" s
  | some 'k' => lit buf "keypair" s
  | some 'p' => lit buf "policy" s
  | some 'g' => lit buf "group" s
  | some 'u' => lit buf "user" s
  | some 't' => lit buf "tags" s
  | _ => lit buf "volume" s

/-- Rule 3, Entity. -/
def entityKw (buf : List Char) : RuleFn :=
  mkRule .entity (pchoice (lit buf "vpc") (pchoice (lit buf "subnet")
    (pchoice (lit buf "instance") (pchoice (lit buf "role")
      (pchoice (lit buf "securitygroup") (pchoice (lit buf "routetable") (entitySwitch buf)))))))

/-- The reference alternative of Value. -/
def refAlt (buf : List Char) : RuleFn :=
  pseq (mkRule .refValue (pseq (matchChar buf '$') (capture (ruleIdentifier buf)))) (actTok .a9)

/-- The alias alternative of Value. -/
def aliasAlt (buf : List Char) : RuleFn :=
  pseq (mkRule .aliasValue (pseq (matchChar buf '@') (capture (ruleIdentifier buf)))) (actTok .a8)

/-- The hole alternative of Value. -/
def holeAlt (buf : List Char) : RuleFn :=
  pseq (ruleHoleValue buf) (actTok .a7)

/-- The plain-string alternative of Value. -/
def stringAlt (buf : List Char) : RuleFn :=
  pseq (capture (ruleStringValue buf)) (actTok .a14)

/-- The trailing switch of the Value rule: the leading character dispatches
between reference, alias, hole and plain string; the sentinel also falls to
the string case, which then fails. -/
def valueSwitch (buf : List Char) : RuleFn := fun s =>
  match peek? buf s.position with
  | some '$' => refAlt buf s
  | some '@' => aliasAlt buf s
  | some c => if c = lbrace then holeAlt buf s else stringAlt buf s
  | none => stringAlt buf s

/-- Rule 10, Value: cidr, ip, int range and int are tried in order before
the character-dispatched alternatives. -/
def ruleValue (buf : List Char) : RuleFn :=
  mkRule .value (pchoice (pseq (capture (ruleCidrValue buf)) (actTok .a10))
    (pchoice (pseq (capture (ruleIpValue buf)) (actTok .a11))
      (pchoice (pseq (capture (ruleIntRange buf)) (actTok .a12))
        (pchoice (pseq (capture (ruleIntValue buf)) (actTok .a13)) (valueSwitch buf)))))

/-- Rule 8, Param. -/
def ruleParam (buf : List Char) : RuleFn :=
  mkRule .param (pseq (capture (ruleIdentifier buf)) (pseq (actTok .a6)
    (pseq (ruleEqual buf) (pseq (ruleValue buf) (ruleWhiteSpacing buf)))))

/-- Rule 7, Params. -/
def ruleParams (buf : List Char) : RuleFn :=
  mkRule .params (pplus buf (ruleParam buf))

/-- Rule 6, Expr. -/
def ruleExpr (buf : List Char) : RuleFn :=
  mkRule .expr (pseq (capture (actionKw buf)) (pseq (actTok .a3)
    (pseq (ruleMustWhiteSpacing buf) (pseq (capture (entityKw buf)) (pseq (actTok .a4)
      (pseq (popt (pseq (ruleMustWhiteSpacing buf) (ruleParams buf))) (actTok .a5)))))))

/-- Rule 11, VarValue. -/
def ruleVarValue (buf : List Char) : RuleFn :=
  mkRule .varValue (pchoice (pseq (ruleHoleValue buf) (actTok .a15))
    (pchoice (pseq (capture (ruleCidrValue buf)) (actTok .a16))
      (pchoice (pseq (capture (ruleIpValue buf)) (actTok .a17))
        (pchoice (pseq (capture (ruleIntRange buf)) (actTok .a18))
          (pchoice (pseq (capture (ruleIntValue buf)) (actTok .a19))
            (pseq (capture (ruleStringValue buf)) (actTok .a20)))))))

/-- Rule 25, Var. -/
def ruleVarKw (buf : List Char) : RuleFn :=
  mkRule .var (pseq (ruleSpacing buf) (pseq (lit buf "var") (ruleSpacing buf)))

/-- Rule 4, VarDeclaration. -/
def ruleVarDeclaration (buf : List Char) : RuleFn :=
  mkRule .varDeclaration (pseq (ruleVarKw buf) (pseq (capture (ruleIdentifier buf))
    (pseq (actTok .a0) (pseq (ruleEqual buf) (pseq (ruleVarValue buf) (actTok .a1))))))

/-- Rule 5, Declaration. -/
def ruleDeclaration (buf : List Char) : RuleFn :=
  mkRule .declaration (pseq (capture (ruleIdentifier buf)) (pseq (actTok .a2)
    (pseq (ruleEqual buf) (ruleExpr buf))))

/-- The rest-of-line loop of a comment. -/
def commentTail (buf : List Char) : RuleFn :=
  pstar buf (pseq (pneg (ruleEndOfLine buf)) (matchDot buf))

/-- Rule 20, Comment. -/
def ruleComment (buf : List Char) : RuleFn :=
  mkRule .comment (pchoice (pseq (matchChar buf '#') (commentTail buf))
    (pseq (matchChar buf '/') (pseq (matchChar buf '/') (pseq (commentTail buf) (actTok .a21)))))

/-- Rule 1, Statement. -/
def ruleStatement (buf : List Char) : RuleFn :=
  mkRule .statement (pseq (ruleSpacing buf) (pseq (pchoice (ruleVarDeclaration buf)
    (pchoice (ruleExpr buf) (pchoice (ruleDeclaration buf) (ruleComment buf))))
    (pseq (ruleSpacing buf) (pstar buf (ruleEndOfLine buf)))))

/-- Rule 29, EndOfFile. -/
def ruleEndOfFile (buf : List Char) : RuleFn :=
  mkRule .endOfFile (pneg (matchDot buf))

/-- Rule 0, Script. -/
def ruleScript (buf : List Char) : RuleFn :=
  mkRule .script (pseq (ruleSpacing buf) (pseq (pplus buf (ruleStatement buf)) (ruleEndOfFile buf)))

/-! The parse and execute pipeline. -/

/-- The initial parser state. -/
def initPState : PState :=
  { position := 0, tokenIndex := 0, tree := [], max := ⟨.unknown, 0, 0⟩ }

/-- Peg.parse on the Script rule: the trimmed token list on success, the
furthest-failure span on failure. -/
def parseTokens (buf : List Char) : Except Token (List Token) :=
  let r := ruleScript buf initPState
  if r.1 then .ok (r.2.tree.take r.2.tokenIndex) else .error r.2.max

/-- The captured substring of the buffer. -/
def slice (buf : List Char) (b e : Nat) : String := String.mk ((buf.drop b).take (e - b))

/-- The zero-valued AST the parse starts from. -/
def initAST : AST := { statements := [], currentStatement := none, currentKey := "" }

/-- One step of Peg.Execute: a PegText span updates the capture, the action
spans call the builder, every other span is skipped. -/
def execTok (buf : List Char) (st : String × AST) (tk : Token) : Except ExecErr (String × AST) :=
  let text := st.1
  let a := st.2
  match tk.rule with
  | .pegText => .ok (slice buf tk.b tk.e, a)
  | .a0 => .ok (text, addVarIdentifier text a)
  | .a1 => .ok (text, lineDone a)
  | .a2 => .ok (text, addDeclarationIdentifier text a)
  | .a3 => do .ok (text, ← addAction text a)
  | .a4 => do .ok (text, ← addEntity text a)
  | .a5 => .ok (text, lineDone a)
  | .a6 => do .ok (text, ← addParamKey text a)
  | .a7 => do .ok (text, ← addParamHoleValue text a)
  | .a8 => do .ok (text, ← addParamAliasValue text a)
  | .a9 => do .ok (text, ← addParamRefValue text a)
  | .a10 => do .ok (text, ← addParamCidrValue text a)
  | .a11 => do .ok (text, ← addParamIpValue text a)
  | .a12 => do .ok (text, ← addParamValue text a)
  | .a13 => do .ok (text, ← addParamIntValue text a)
  | .a14 => do .ok (text, ← addParamValue text a)
  | .a15 => do .ok (text, ← addVarHoleValue text a)
  | .a16 => do .ok (text, ← addVarCidrValue text a)
  | .a17 => do .ok (text, ← addVarIpValue text a)
  | .a18 => do .ok (text, ← addVarValue text a)
  | .a19 => do .ok (text, ← addVarIntValue text a)
  | .a20 => do .ok (text, ← addVarValue text a)
  | .a21 => .ok (text, lineDone a)
  | _ => .ok st

/-- Peg.Execute over the trimmed token list. -/
def executeTokens (buf : List Char) (toks : List Token) : Except ExecErr AST := do
  let r ← toks.foldlM (execTok buf) ("", initAST)
  .ok r.2

/-- The two failure classes of the pipeline: alternative exhaustion with the
furthest-failure span, and fatal builder or literal errors. -/
inductive PipeErr where
  | parseFail (max : Token)
  | execFail (e : ExecErr)
deriving DecidableEq

/-- Parse then execute: the construction of an AST from source text. -/
def pipeline (source : String) : Except PipeErr AST :=
  match parseTokens source.data with
  | .error mx => .error (.parseFail mx)
  | .ok toks =>
    match executeTokens source.data toks with
    | .error e => .error (.execFail e)
    | .ok a => .ok a

/-- Whether a pipeline run ended in a soft parse failure. -/
def isParseFail : Except PipeErr AST → Bool
  | .error (.parseFail _) => true
  | _ => false

/-! Theorems for the claims. -/

/-- C10: Statement.clone fills the Node (deep-cloned), Result and Err fields
of the clone from the source, while the Line field of the clone is always
the empty string, even when the source Line is not empty; Line is the one
field that is not preserved. -/
theorem c10_statement_clone_fields (s : Statement) :
    (cloneStatement s).node = cloneNode s.node ∧
    (cloneStatement s).result = s.result ∧
    (cloneStatement s).err = s.err ∧
    (cloneStatement s).line = "" ∧
    (s.line ≠ "" → (cloneStatement s).line ≠ s.line) :=
  ⟨rfl, rfl, rfl, rfl, fun h heq => h heq.symm⟩

/-- Witness for C10 at a statement with a non-empty Line. -/
theorem c10_statement_clone_fields_witness :
    ({ node := .expr emptyExpr, result := none, line := "create vpc", err := none } : Statement).line ≠ "" ∧
    (cloneStatement { node := .expr emptyExpr, result := none, line := "create vpc", err := none }).line
      ≠ ({ node := .expr emptyExpr, result := none, line := "create vpc", err := none } : Statement).line :=
  ⟨by decide,
   (c10_statement_clone_fields
     { node := .expr emptyExpr, result := none, line := "create vpc", err := none }).2.2.2.2
     (by decide)⟩

/-- C8: ExecutionStatements returns exactly the statements whose node is not
a Var node, as an order-preserving filter of the statement list, hence a
sublist of the unchanged statement list. -/
theorem c8_execution_statements (a : AST) :
    executionStatements a = a.statements.filter (fun st => !isVarNode st.node) ∧
    (executionStatements a).Sublist a.statements := by
  have h : ∀ l : List Statement, execStatementsGo l = l.filter (fun st => !isVarNode st.node) := by
    intro l
    induction l with
    | nil => rfl
    | cons st rest ih =>
        by_cases hv : isVarNode st.node <;>
          simp [execStatementsGo, List.filter_cons, hv, ih]
  refine ⟨h a.statements, ?_⟩
  show List.Sublist (execStatementsGo a.statements) a.statements
  rw [h a.statements]
  exact List.filter_sublist _

/-- The AST exhibiting the Var clone behaviour: one Var statement whose Hole
map holds the single entry from x to h. -/
def c1Src : AST :=
  { statements := [{ node := .var { i := { ident := "x", val := none }, hole := [("x", "h")] },
                     result := none, line := "", err := none }],
    currentStatement := none, currentKey := "" }

/-- The Hole map of the first statement of an AST when it is a Var node. -/
def firstVarHole (a : AST) : Option (AMap String) :=
  match a.statements with
  | st :: _ =>
    match st.node with
    | .var v => some v.hole
    | _ => none
  | [] => none

/-- C1: evaluation at the failing input. The source AST holds the Hole entry
from x to h, yet the clone produced by AST.Clone holds an empty Hole map:
VarNode.clone installs a fresh empty map instead of copying the entries, so
the clone does not contain the same entries as the source. -/
theorem c1_var_clone_empties_hole :
    firstVarHole c1Src = some [("x", "h")] ∧
    firstVarHole (cloneAST c1Src) = some [] :=
  ⟨rfl, rfl⟩

set_option maxRecDepth 100000 in
/-- C5 counterexample: on the input of the claim the pipeline ends in a soft
parse failure, contradicting the claimed fatal failure inside the CIDR
semantic validation. The CidrValue rule demands digits after the slash, so
it rejects the text, IpValue consumes the dotted quad, and the residue
exhausts every alternative. -/
theorem c5_cidr_example_is_soft_parse_failure :
    isParseFail (pipeline "create vpc cidr=10.0.0.0/abc") = true := by
  rfl

set_option maxRecDepth 100000 in
/-- C5 amended: the specific input of the claim fails as an ordinary parse
error without reaching parseCIDR, while value text that the loose CidrValue
pattern does match but that is semantically invalid aborts fatally in the
defensive parseCIDR check, as on the input with letter separators. -/
theorem c5_amended_fatal_only_when_cidr_rule_matches :
    isParseFail (pipeline "create vpc cidr=10.0.0.0/abc") = true ∧
    pipeline "create vpc cidr=1a2b3c4/5" = .error (.execFail (.invalidCidr "1a2b3c4/5")) := by
  exact ⟨rfl, rfl⟩

set_option maxRecDepth 100000 in
/-- Sanity check of the pipeline on the canonical spec example: one
Expression statement with the cidr parameter. -/
theorem pipeline_create_vpc_example :
    (pipeline "create vpc cidr=10.0.0.0/16").map astString = .ok "create vpc cidr=10.0.0.0/16" := by
  rfl

/-- The AST built from the Var-with-hole source: the identifier value stays
nil and the Hole map binds the identifier to the hole name. -/
def c4AST : AST :=
  { statements := [{ node := .var { i := { ident := "x", val := none }, hole := [("x", "h")] },
                     result := none, line := "", err := none }],
    currentStatement := none, currentKey := "" }

/-! Association-map lemmas shared by the resolution and rendering proofs. -/

theorem mlookup_mset_self {α : Type} (m : AMap α) (k : String) (v : α) :
    mlookup (mset m k v) k = some v := by
  induction m with
  | nil => simp [mset, mlookup]
  | cons p rest ih =>
      by_cases h : p.1 = k <;> simp [mset, mlookup, h, ih]

theorem mlookup_mset_ne {α : Type} (m : AMap α) (k k2 : String) (v : α) (h : k ≠ k2) :
    mlookup (mset m k v) k2 = mlookup m k2 := by
  induction m with
  | nil => simp [mset, mlookup, h]
  | cons p rest ih =>
      by_cases hp : p.1 = k
      · simp [mset, hp, mlookup, h]
      · simp [mset, hp, mlookup, ih]

theorem mlookup_mdel_self {α : Type} (m : AMap α) (k : String) :
    mlookup (mdel m k) k = none := by
  induction m with
  | nil => simp [mdel, mlookup]
  | cons p rest ih =>
      by_cases hp : p.1 = k <;> simp [mdel, mlookup, hp, ih]

theorem mlookup_mdel_ne {α : Type} (m : AMap α) (k k2 : String) (h : k ≠ k2) :
    mlookup (mdel m k) k2 = mlookup m k2 := by
  induction m with
  | nil => simp [mdel, mlookup]
  | cons p rest ih =>
      obtain ⟨pk, pv⟩ := p
      by_cases hp : pk = k
      · subst hp
        simp [mdel, mlookup, ih, h]
      · by_cases h2 : pk = k2
        · subst h2
          simp [mdel, mlookup, hp, ih]
        · simp [mdel, mlookup, hp, h2, ih]

theorem mlookup_eq_none_iff {α : Type} (m : AMap α) (k : String) :
    mlookup m k = none ↔ k ∉ mkeys m := by
  induction m with
  | nil => simp [mlookup, mkeys]
  | cons p rest ih =>
      by_cases hp : p.1 = k
      · simp [mlookup, mkeys, hp, ih]
      · simp [mlookup, mkeys, hp, ih]
        tauto

theorem mlookup_self_of_mem {α : Type} {m : AMap α} (hm : NodupK m) {p : String × α}
    (hp : p ∈ m) : mlookup m p.1 = some p.2 := by
  induction m with
  | nil => cases hp
  | cons q rest ih =>
      obtain ⟨qk, qv⟩ := q
      have hnd : qk ∉ mkeys rest ∧ NodupK rest := by
        simpa [NodupK, mkeys, List.nodup_cons] using hm
      rcases List.mem_cons.mp hp with h | h
      · rw [← h]
        simp [mlookup]
      · have hq : qk ≠ p.1 := by
          intro hc
          exact hnd.1 (hc ▸ List.mem_map_of_mem Prod.fst h)
        simp [mlookup, hq, ih hnd.2 h]

theorem mkeys_mset {α : Type} (m : AMap α) (k : String) (v : α) :
    mkeys (mset m k v) = if k ∈ mkeys m then mkeys m else mkeys m ++ [k] := by
  induction m with
  | nil => simp [mset, mkeys]
  | cons p rest ih =>
      obtain ⟨pk, pv⟩ := p
      by_cases hp : pk = k
      · subst hp
        simp [mset, mkeys]
      · have hk : k ≠ pk := fun hc => hp hc.symm
        simp only [mset, if_neg hp, mkeys, List.map_cons] at ih ⊢
        rw [ih]
        by_cases hm : k ∈ List.map Prod.fst rest
        · rw [if_pos hm, if_pos (List.mem_cons.mpr (Or.inr hm))]
        · rw [if_neg hm, if_neg (by simp [List.mem_cons, hk, hm])]
          simp

theorem nodupk_mset {α : Type} {m : AMap α} (k : String) (v : α) (h : NodupK m) :
    NodupK (mset m k v) := by
  unfold NodupK at h ⊢
  rw [mkeys_mset]
  by_cases hm : k ∈ mkeys m
  · simpa [hm]
  · simp [hm, List.nodup_append, h]

theorem mkeys_mdel_sublist {α : Type} (m : AMap α) (k : String) :
    (mkeys (mdel m k)).Sublist (mkeys m) := by
  induction m with
  | nil => simp [mdel, mkeys]
  | cons p rest ih =>
      by_cases hp : p.1 = k
      · simp only [mdel, hp, if_pos]
        exact ih.trans (List.sublist_cons_self _ _)
      · simpa [mdel, hp, mkeys] using ih

theorem nodupk_mdel {α : Type} {m : AMap α} (k : String) (h : NodupK m) :
    NodupK (mdel m k) :=
  (mkeys_mdel_sublist m k).nodup h

theorem oList_map_mdel (o : Option (AMap String)) (k : String) :
    oList (Option.map (fun m => mdel m k) o) = mdel (oList o) k := by
  cases o <;> simp [oList, mdel]

/-- Lookup characterization of the ExpressionNode.ProcessHoles loop, for a
snapshot list whose entries are present in the Holes map, with unique keys,
and an accumulator disjoint from the snapshot keys. -/
theorem exprPHGo_spec (fills : AMap GoVal) :
    ∀ (l : List (String × String)) (e : ExpressionNode) (acc : AMap GoVal),
      (∀ p ∈ l, mlookup (oList e.holes) p.1 = some p.2) →
      (mkeys l).Nodup →
      (∀ k, mlookup l k ≠ none → mlookup acc k = none) →
      (∀ k h, mlookup l k = some h →
        (∀ v, mlookup fills h = some v →
          mlookup (oList (exprPHGo l e fills acc).1.holes) k = none ∧
          mlookup (oList (exprPHGo l e fills acc).1.params) k = some v ∧
          mlookup (exprPHGo l e fills acc).2 k = some v) ∧
        (mlookup fills h = none →
          mlookup (oList (exprPHGo l e fills acc).1.holes) k = mlookup (oList e.holes) k ∧
          mlookup (oList (exprPHGo l e fills acc).1.params) k = mlookup (oList e.params) k ∧
          mlookup (exprPHGo l e fills acc).2 k = mlookup acc k)) ∧
      (∀ k, mlookup l k = none →
        mlookup (oList (exprPHGo l e fills acc).1.holes) k = mlookup (oList e.holes) k ∧
        mlookup (oList (exprPHGo l e fills acc).1.params) k = mlookup (oList e.params) k ∧
        mlookup (exprPHGo l e fills acc).2 k = mlookup acc k) ∧
      (exprPHGo l e fills acc).1.refs = e.refs ∧
      (exprPHGo l e fills acc).1.aliases = e.aliases ∧
      (exprPHGo l e fills acc).1.action = e.action ∧
      (exprPHGo l e fills acc).1.entity = e.entity := by
  intro l
  induction l with
  | nil =>
      intro e acc _ _ _
      refine ⟨?_, ?_, rfl, rfl, rfl, rfl⟩
      · intro k h hkh
        simp [mlookup] at hkh
      · intro k _
        exact ⟨rfl, rfl, rfl⟩
  | cons p rest ih =>
      intro e acc hpresent hnodup haccfree
      obtain ⟨k0, h0⟩ := p
      have hnc : k0 ∉ mkeys rest ∧ (mkeys rest).Nodup := by
        rw [show mkeys ((k0, h0) :: rest) = k0 :: mkeys rest from rfl] at hnodup
        exact List.nodup_cons.mp hnodup
      have hk0notin : k0 ∉ mkeys rest := hnc.1
      have hrestnodup : (mkeys rest).Nodup := hnc.2
      have hrestk0 : mlookup rest k0 = none := (mlookup_eq_none_iff rest k0).mpr hk0notin
      have hk0holes : mlookup (oList e.holes) k0 = some h0 := hpresent _ (List.mem_cons_self _ _)
      cases hf : mlookup fills h0 with
      | some v0 =>
          have hstep : exprPHGo ((k0, h0) :: rest) e fills acc =
              exprPHGo rest
                { e with params := some (mset (oList e.params) k0 v0),
                         holes := Option.map (fun m => mdel m k0) e.holes }
                fills (mset acc k0 v0) := by
            simp [exprPHGo, hf]
          have h1 : ∀ q ∈ rest,
              mlookup (oList (Option.map (fun m => mdel m k0) e.holes)) q.1 = some q.2 := by
            intro q hq
            have hqk : k0 ≠ q.1 := by
              intro hc
              exact hk0notin (hc ▸ List.mem_map_of_mem Prod.fst hq)
            rw [oList_map_mdel, mlookup_mdel_ne _ _ _ hqk]
            exact hpresent _ (List.mem_cons_of_mem _ hq)
          have h3 : ∀ k, mlookup rest k ≠ none → mlookup (mset acc k0 v0) k = none := by
            intro k hk
            have hkne : k0 ≠ k := by
              intro hc
              exact hk (hc ▸ hrestk0)
            rw [mlookup_mset_ne _ _ _ _ hkne]
            apply haccfree
            simp [mlookup, hkne, hk]
          obtain ⟨ih1, ih2, ihr, iha, ihac, ihen⟩ :=
            ih
              { e with
                params := some (mset (oList e.params) k0 v0)
                holes := Option.map (fun m => mdel m k0) e.holes }
              (mset acc k0 v0) h1 hrestnodup h3
          rw [hstep]
          refine ⟨?_, ?_, ihr, iha, ihac, ihen⟩
          · intro k h hkh
            by_cases hk : k0 = k
            · subst hk
              simp [mlookup] at hkh
              subst hkh
              constructor
              · intro v hv
                rw [hf] at hv
                cases hv
                obtain ⟨ha, hb, hc⟩ := ih2 k0 hrestk0
                refine ⟨?_, ?_, ?_⟩
                · rw [ha]
                  show mlookup (oList (Option.map (fun m => mdel m k0) e.holes)) k0 = none
                  rw [oList_map_mdel]
                  exact mlookup_mdel_self _ _
                · rw [hb]
                  exact mlookup_mset_self _ _ _
                · rw [hc]
                  exact mlookup_mset_self _ _ _
              · intro hv
                rw [hf] at hv
                cases hv
            · have hkh2 : mlookup rest k = some h := by
                simpa [mlookup, hk] using hkh
              obtain ⟨c1, c2⟩ := ih1 k h hkh2
              constructor
              · intro v hv
                exact c1 v hv
              · intro hv
                obtain ⟨ha, hb, hc⟩ := c2 hv
                refine ⟨?_, ?_, ?_⟩
                · rw [ha]
                  show mlookup (oList (Option.map (fun m => mdel m k0) e.holes)) k =
                    mlookup (oList e.holes) k
                  rw [oList_map_mdel]
                  exact mlookup_mdel_ne _ _ _ hk
                · rw [hb]
                  exact mlookup_mset_ne _ _ _ _ hk
                · rw [hc]
                  exact mlookup_mset_ne _ _ _ _ hk
          · intro k hknone
            have hk : k0 ≠ k := by
              intro hc
              subst hc
              simp [mlookup] at hknone
            have hkrest : mlookup rest k = none := by
              simpa [mlookup, hk] using hknone
            obtain ⟨ha, hb, hc⟩ := ih2 k hkrest
            refine ⟨?_, ?_, ?_⟩
            · rw [ha]
              show mlookup (oList (Option.map (fun m => mdel m k0) e.holes)) k =
                mlookup (oList e.holes) k
              rw [oList_map_mdel]
              exact mlookup_mdel_ne _ _ _ hk
            · rw [hb]
              exact mlookup_mset_ne _ _ _ _ hk
            · rw [hc]
              exact mlookup_mset_ne _ _ _ _ hk
      | none =>
          have hstep : exprPHGo ((k0, h0) :: rest) e fills acc = exprPHGo rest e fills acc := by
            simp [exprPHGo, hf]
          have h1 : ∀ p ∈ rest, mlookup (oList e.holes) p.1 = some p.2 := by
            intro q hq
            exact hpresent _ (List.mem_cons_of_mem _ hq)
          have h3 : ∀ k, mlookup rest k ≠ none → mlookup acc k = none := by
            intro k hk
            apply haccfree
            by_cases hkc : k0 = k <;> simp [mlookup, hkc, hk]
          obtain ⟨ih1, ih2, ihr, iha, ihac, ihen⟩ := ih e acc h1 hrestnodup h3
          rw [hstep]
          refine ⟨?_, ?_, ihr, iha, ihac, ihen⟩
          · intro k h hkh
            by_cases hk : k0 = k
            · subst hk
              simp [mlookup] at hkh
              subst hkh
              constructor
              · intro v hv
                rw [hf] at hv
                cases hv
              · intro _
                exact ih2 k0 hrestk0
            · have hkh2 : mlookup rest k = some h := by
                simpa [mlookup, hk] using hkh
              exact ih1 k h hkh2
          · intro k hknone
            have hk : k0 ≠ k := by
              intro hc
              subst hc
              simp [mlookup] at hknone
            have hkrest : mlookup rest k = none := by
              simpa [mlookup, hk] using hknone
            exact ih2 k hkrest

/-- Lookup characterization of the ExpressionNode.ProcessRefs loop, under
the same side conditions as the holes loop. -/
theorem exprPRGo_spec (fills : AMap GoVal) :
    ∀ (l : List (String × String)) (e : ExpressionNode),
      (∀ p ∈ l, mlookup (oList e.refs) p.1 = some p.2) →
      (mkeys l).Nodup →
      (∀ k h, mlookup l k = some h →
        (∀ v, mlookup fills h = some v →
          mlookup (oList (exprPRGo l e fills).refs) k = none ∧
          mlookup (oList (exprPRGo l e fills).params) k = some v) ∧
        (mlookup fills h = none →
          mlookup (oList (exprPRGo l e fills).refs) k = mlookup (oList e.refs) k ∧
          mlookup (oList (exprPRGo l e fills).params) k = mlookup (oList e.params) k)) ∧
      (∀ k, mlookup l k = none →
        mlookup (oList (exprPRGo l e fills).refs) k = mlookup (oList e.refs) k ∧
        mlookup (oList (exprPRGo l e fills).params) k = mlookup (oList e.params) k) ∧
      (exprPRGo l e fills).holes = e.holes ∧
      (exprPRGo l e fills).aliases = e.aliases ∧
      (exprPRGo l e fills).action = e.action ∧
      (exprPRGo l e fills).entity = e.entity := by
  intro l
  induction l with
  | nil =>
      intro e _ _
      refine ⟨?_, ?_, rfl, rfl, rfl, rfl⟩
      · intro k h hkh
        simp [mlookup] at hkh
      · intro k _
        exact ⟨rfl, rfl⟩
  | cons p rest ih =>
      intro e hpresent hnodup
      obtain ⟨k0, h0⟩ := p
      have hnc : k0 ∉ mkeys rest ∧ (mkeys rest).Nodup := by
        rw [show mkeys ((k0, h0) :: rest) = k0 :: mkeys rest from rfl] at hnodup
        exact List.nodup_cons.mp hnodup
      have hrestk0 : mlookup rest k0 = none := (mlookup_eq_none_iff rest k0).mpr hnc.1
      cases hf : mlookup fills h0 with
      | some v0 =>
          have hstep : exprPRGo ((k0, h0) :: rest) e fills =
              exprPRGo rest
                { e with
                  params := some (mset (oList e.params) k0 v0)
                  refs := Option.map (fun m => mdel m k0) e.refs } fills := by
            simp [exprPRGo, hf]
          have h1 : ∀ q ∈ rest,
              mlookup (oList (Option.map (fun m => mdel m k0) e.refs)) q.1 = some q.2 := by
            intro q hq
            have hqk : k0 ≠ q.1 := by
              intro hc
              exact hnc.1 (hc ▸ List.mem_map_of_mem Prod.fst hq)
            rw [oList_map_mdel, mlookup_mdel_ne _ _ _ hqk]
            exact hpresent _ (List.mem_cons_of_mem _ hq)
          obtain ⟨ih1, ih2, ihh, iha, ihac, ihen⟩ :=
            ih
              { e with
                params := some (mset (oList e.params) k0 v0)
                refs := Option.map (fun m => mdel m k0) e.refs } h1 hnc.2
          rw [hstep]
          refine ⟨?_, ?_, ihh, iha, ihac, ihen⟩
          · intro k h hkh
            by_cases hk : k0 = k
            · subst hk
              simp [mlookup] at hkh
              subst hkh
              constructor
              · intro v hv
                rw [hf] at hv
                cases hv
                obtain ⟨ha, hb⟩ := ih2 k0 hrestk0
                refine ⟨?_, ?_⟩
                · rw [ha]
                  show mlookup (oList (Option.map (fun m => mdel m k0) e.refs)) k0 = none
                  rw [oList_map_mdel]
                  exact mlookup_mdel_self _ _
                · rw [hb]
                  exact mlookup_mset_self _ _ _
              · intro hv
                rw [hf] at hv
                cases hv
            · have hkh2 : mlookup rest k = some h := by
                simpa [mlookup, hk] using hkh
              obtain ⟨c1, c2⟩ := ih1 k h hkh2
              constructor
              · intro v hv
                exact c1 v hv
              · intro hv
                obtain ⟨ha, hb⟩ := c2 hv
                refine ⟨?_, ?_⟩
                · rw [ha]
                  show mlookup (oList (Option.map (fun m => mdel m k0) e.refs)) k =
                    mlookup (oList e.refs) k
                  rw [oList_map_mdel]
                  exact mlookup_mdel_ne _ _ _ hk
                · rw [hb]
                  exact mlookup_mset_ne _ _ _ _ hk
          · intro k hknone
            have hk : k0 ≠ k := by
              intro hc
              subst hc
              simp [mlookup] at hknone
            have hkrest : mlookup rest k = none := by
              simpa [mlookup, hk] using hknone
            obtain ⟨ha, hb⟩ := ih2 k hkrest
            refine ⟨?_, ?_⟩
            · rw [ha]
              show mlookup (oList (Option.map (fun m => mdel m k0) e.refs)) k =
                mlookup (oList e.refs) k
              rw [oList_map_mdel]
              exact mlookup_mdel_ne _ _ _ hk
            · rw [hb]
              exact mlookup_mset_ne _ _ _ _ hk
      | none =>
          have hstep : exprPRGo ((k0, h0) :: rest) e fills = exprPRGo rest e fills := by
            simp [exprPRGo, hf]
          have h1 : ∀ q ∈ rest, mlookup (oList e.refs) q.1 = some q.2 := by
            intro q hq
            exact hpresent _ (List.mem_cons_of_mem _ hq)
          obtain ⟨ih1, ih2, ihh, iha, ihac, ihen⟩ := ih e h1 hnc.2
          rw [hstep]
          refine ⟨?_, ?_, ihh, iha, ihac, ihen⟩
          · intro k h hkh
            by_cases hk : k0 = k
            · subst hk
              simp [mlookup] at hkh
              subst hkh
              constructor
              · intro v hv
                rw [hf] at hv
                cases hv
              · intro _
                exact ih2 k0 hrestk0
            · have hkh2 : mlookup rest k = some h := by
                simpa [mlookup, hk] using hkh
              exact ih1 k h hkh2
          · intro k hknone
            have hk : k0 ≠ k := by
              intro hc
              subst hc
              simp [mlookup] at hknone
            have hkrest : mlookup rest k = none := by
              simpa [mlookup, hk] using hknone
            exact ih2 k hkrest

/-- The processing loops preserve unique keys in Params and in the map they
delete from. -/
theorem exprPHGo_nodup (fills : AMap GoVal) :
    ∀ (l : List (String × String)) (e : ExpressionNode) (acc : AMap GoVal),
      NodupK (oList e.params) → NodupK (oList e.holes) →
      NodupK (oList (exprPHGo l e fills acc).1.params) ∧
      NodupK (oList (exprPHGo l e fills acc).1.holes) := by
  intro l
  induction l with
  | nil =>
      intro e acc hp hh
      exact ⟨hp, hh⟩
  | cons p rest ih =>
      intro e acc hp hh
      obtain ⟨k0, h0⟩ := p
      cases hf : mlookup fills h0 with
      | some v0 =>
          have hstep : exprPHGo ((k0, h0) :: rest) e fills acc =
              exprPHGo rest
                { e with
                  params := some (mset (oList e.params) k0 v0)
                  holes := Option.map (fun m => mdel m k0) e.holes }
                fills (mset acc k0 v0) := by
            simp [exprPHGo, hf]
          rw [hstep]
          apply ih
          · exact nodupk_mset _ _ hp
          · show NodupK (oList (Option.map (fun m => mdel m k0) e.holes))
            rw [oList_map_mdel]
            exact nodupk_mdel _ hh
      | none =>
          have hstep : exprPHGo ((k0, h0) :: rest) e fills acc = exprPHGo rest e fills acc := by
            simp [exprPHGo, hf]
          rw [hstep]
          exact ih e acc hp hh

/-- Unique keys preserved by the refs loop. -/
theorem exprPRGo_nodup (fills : AMap GoVal) :
    ∀ (l : List (String × String)) (e : ExpressionNode),
      NodupK (oList e.params) → NodupK (oList e.refs) →
      NodupK (oList (exprPRGo l e fills).params) ∧
      NodupK (oList (exprPRGo l e fills).refs) := by
  intro l
  induction l with
  | nil =>
      intro e hp hr
      exact ⟨hp, hr⟩
  | cons p rest ih =>
      intro e hp hr
      obtain ⟨k0, h0⟩ := p
      cases hf : mlookup fills h0 with
      | some v0 =>
          have hstep : exprPRGo ((k0, h0) :: rest) e fills =
              exprPRGo rest
                { e with
                  params := some (mset (oList e.params) k0 v0)
                  refs := Option.map (fun m => mdel m k0) e.refs } fills := by
            simp [exprPRGo, hf]
          rw [hstep]
          apply ih
          · exact nodupk_mset _ _ hp
          · show NodupK (oList (Option.map (fun m => mdel m k0) e.refs))
            rw [oList_map_mdel]
            exact nodupk_mdel _ hr
      | none =>
          have hstep : exprPRGo ((k0, h0) :: rest) e fills = exprPRGo rest e fills := by
            simp [exprPRGo, hf]
          rw [hstep]
          exact ih e hp hr

/-- C2 counterexample: a Var node with identifier a bound to hole x,
processed with a fill for x, returns the processed map keyed by the hole
name x, not by the key a as the claim states. -/
theorem c2_var_processed_keyed_by_hole_name :
    (varProcessHoles { i := { ident := "a", val := none }, hole := [("a", "x")] }
        [("x", GoVal.int 1)]).2 = [("x", GoVal.int 1)] ∧
    mlookup (varProcessHoles { i := { ident := "a", val := none }, hole := [("a", "x")] }
        [("x", GoVal.int 1)]).2 "a" = none := by
  constructor <;> rfl

/-- C2 amended: ProcessHoles resolves exactly the entries whose hole name is
present in fills, moving the value into Params (Expression) or the bound
identifier value (Var), deleting the key from Holes and leaving the rest
untouched; the returned map holds exactly the resolved pairs, keyed by the
parameter key for Expression nodes but keyed by the hole name for Var
nodes. -/
theorem c2_amended_process_holes (e : ExpressionNode) (fills : AMap GoVal)
    (hn : NodupK (oList e.holes)) :
    (∀ k h, mlookup (oList e.holes) k = some h →
      (∀ v, mlookup fills h = some v →
        mlookup (oList (exprProcessHoles e fills).1.holes) k = none ∧
        mlookup (oList (exprProcessHoles e fills).1.params) k = some v ∧
        mlookup (exprProcessHoles e fills).2 k = some v) ∧
      (mlookup fills h = none →
        mlookup (oList (exprProcessHoles e fills).1.holes) k = some h ∧
        mlookup (oList (exprProcessHoles e fills).1.params) k = mlookup (oList e.params) k ∧
        mlookup (exprProcessHoles e fills).2 k = none)) ∧
    (∀ k, mlookup (oList e.holes) k = none →
      mlookup (oList (exprProcessHoles e fills).1.holes) k = none ∧
      mlookup (oList (exprProcessHoles e fills).1.params) k = mlookup (oList e.params) k ∧
      mlookup (exprProcessHoles e fills).2 k = none) ∧
    (exprProcessHoles e fills).1.refs = e.refs ∧
    (exprProcessHoles e fills).1.aliases = e.aliases ∧
    (∀ (n : VarNode) (k h : String), n.hole = [(k, h)] →
      (∀ v, mlookup fills h = some v →
        varProcessHoles n fills =
          ({ i := { ident := n.i.ident, val := some v }, hole := [] }, [(h, v)])) ∧
      (mlookup fills h = none → varProcessHoles n fills = (n, []))) := by
  obtain ⟨s1, s2, sr, sa, _, _⟩ :=
    exprPHGo_spec fills (oList e.holes) e []
      (fun p hp => mlookup_self_of_mem hn hp) hn (fun _ _ => rfl)
  refine ⟨?_, ?_, sr, sa, ?_⟩
  · intro k h hkh
    obtain ⟨c1, c2⟩ := s1 k h hkh
    refine ⟨c1, ?_⟩
    intro hv
    obtain ⟨ha, hb, hc⟩ := c2 hv
    exact ⟨ha.trans hkh, hb, hc⟩
  · intro k hknone
    obtain ⟨ha, hb, hc⟩ := s2 k hknone
    exact ⟨ha.trans hknone, hb, hc⟩
  · intro n k h hh
    constructor
    · intro v hv
      show varPHGo n.hole n fills [] = _
      rw [hh]
      simp [varPHGo, hv, hh, mdel, mset]
    · intro hv
      show varPHGo n.hole n fills [] = _
      rw [hh]
      simp [varPHGo, hv]

/-- The expression used in the C2 witness: two holes, one matching fill. -/
def c2E : ExpressionNode :=
  { emptyExpr with holes := some [("a", "x"), ("b", "y")], params := some [] }

/-- Witness for C2 amended at concrete maps: processing the holes a to x and
b to y with the single fill for x resolves a into Params and the processed
map, at value 1. -/
theorem c2_amended_process_holes_witness :
    NodupK (oList c2E.holes) ∧
    mlookup (oList c2E.holes) "a" = some "x" ∧
    mlookup [("x", GoVal.int 1)] "x" = some (.int 1) ∧
    (mlookup (oList (exprProcessHoles c2E [("x", GoVal.int 1)]).1.holes) "a" = none ∧
     mlookup (oList (exprProcessHoles c2E [("x", GoVal.int 1)]).1.params) "a" = some (.int 1) ∧
     mlookup (exprProcessHoles c2E [("x", GoVal.int 1)]).2 "a" = some (.int 1)) :=
  ⟨by decide, by decide, by decide,
   ((c2_amended_process_holes c2E [("x", GoVal.int 1)] (by decide)).1 "a" "x"
     (by decide)).1 (.int 1) (by decide)⟩

/-! Key exclusivity across the four parameter maps. -/

/-- The property of claim C3: no parameter key is present in more than one
of the four maps. -/
def DisjointE (e : ExpressionNode) : Prop :=
  ∀ k,
    (mlookup (oList e.params) k ≠ none →
      mlookup (oList e.refs) k = none ∧ mlookup (oList e.aliases) k = none ∧
      mlookup (oList e.holes) k = none) ∧
    (mlookup (oList e.refs) k ≠ none →
      mlookup (oList e.aliases) k = none ∧ mlookup (oList e.holes) k = none) ∧
    (mlookup (oList e.aliases) k ≠ none → mlookup (oList e.holes) k = none)

/-- A key absent from all four maps. -/
def FreeKey (e : ExpressionNode) (k : String) : Prop :=
  mlookup (oList e.params) k = none ∧ mlookup (oList e.refs) k = none ∧
  mlookup (oList e.aliases) k = none ∧ mlookup (oList e.holes) k = none

/-- The unique-keys bundle over the four maps. -/
def NodupE (e : ExpressionNode) : Prop :=
  NodupK (oList e.params) ∧ NodupK (oList e.refs) ∧
  NodupK (oList e.aliases) ∧ NodupK (oList e.holes)

/-- ProcessHoles preserves disjointness, unique keys and free keys: it only
moves keys from Holes into Params. -/
theorem procHoles_preserves (e : ExpressionNode) (fills : AMap GoVal)
    (hd : DisjointE e) (hn : NodupE e) :
    DisjointE (exprProcessHoles e fills).1 ∧ NodupE (exprProcessHoles e fills).1 ∧
    (∀ k, FreeKey e k → FreeKey (exprProcessHoles e fills).1 k) := by
  obtain ⟨hnp, hnr, hna, hnh⟩ := hn
  obtain ⟨s1, s2, sr, sa, _, _⟩ :=
    exprPHGo_spec fills (oList e.holes) e []
      (fun p hp => mlookup_self_of_mem hnh hp) hnh (fun _ _ => rfl)
  unfold exprProcessHoles
  have hrefs : ∀ k, mlookup (oList (exprPHGo (oList e.holes) e fills []).1.refs) k = mlookup (oList e.refs) k := by
    intro k
    rw [sr]
  have halias : ∀ k, mlookup (oList (exprPHGo (oList e.holes) e fills []).1.aliases) k = mlookup (oList e.aliases) k := by
    intro k
    rw [sa]
  refine ⟨?_, ⟨(exprPHGo_nodup fills _ e [] hnp hnh).1, sr ▸ hnr, sa ▸ hna,
    (exprPHGo_nodup fills _ e [] hnp hnh).2⟩, ?_⟩
  · intro k
    cases hk : mlookup (oList e.holes) k with
    | none =>
        obtain ⟨h1, h2, _⟩ := s2 k hk
        refine ⟨?_, ?_, ?_⟩
        · intro hp
          rw [h2] at hp
          obtain ⟨r1, r2, _⟩ := (hd k).1 hp
          exact ⟨(hrefs k).trans r1, (halias k).trans r2, h1.trans hk⟩
        · intro hp
          rw [hrefs k] at hp
          obtain ⟨r1, _⟩ := (hd k).2.1 hp
          exact ⟨(halias k).trans r1, h1.trans hk⟩
        · intro _
          exact h1.trans hk
    | some h =>
        have hpn : mlookup (oList e.params) k = none := by
          by_contra hc
          rw [((hd k).1 hc).2.2] at hk
          cases hk
        have hrn : mlookup (oList e.refs) k = none := by
          by_contra hc
          rw [((hd k).2.1 hc).2] at hk
          cases hk
        have han : mlookup (oList e.aliases) k = none := by
          by_contra hc
          rw [(hd k).2.2 hc] at hk
          cases hk
        cases hf : mlookup fills h with
        | some v =>
            obtain ⟨h1, h2, _⟩ := (s1 k h hk).1 v hf
            refine ⟨?_, ?_, ?_⟩
            · intro _
              exact ⟨(hrefs k).trans hrn, (halias k).trans han, h1⟩
            · intro hp
              rw [hrefs k, hrn] at hp
              cases hp rfl
            · intro hp
              rw [halias k, han] at hp
              cases hp rfl
        | none =>
            obtain ⟨h1, h2, _⟩ := (s1 k h hk).2 hf
            refine ⟨?_, ?_, ?_⟩
            · intro hp
              rw [h2, hpn] at hp
              cases hp rfl
            · intro hp
              rw [hrefs k, hrn] at hp
              cases hp rfl
            · intro hp
              rw [halias k, han] at hp
              cases hp rfl
  · intro k hfree
    obtain ⟨f1, f2, f3, f4⟩ := hfree
    obtain ⟨h1, h2, _⟩ := s2 k f4
    exact ⟨h2.trans f1, (hrefs k).trans f2, (halias k).trans f3, h1.trans f4⟩

/-- ProcessRefs preserves disjointness, unique keys and free keys: it only
moves keys from Refs into Params. -/
theorem procRefs_preserves (e : ExpressionNode) (fills : AMap GoVal)
    (hd : DisjointE e) (hn : NodupE e) :
    DisjointE (exprProcessRefs e fills) ∧ NodupE (exprProcessRefs e fills) ∧
    (∀ k, FreeKey e k → FreeKey (exprProcessRefs e fills) k) := by
  obtain ⟨hnp, hnr, hna, hnh⟩ := hn
  obtain ⟨s1, s2, sh, sa, _, _⟩ :=
    exprPRGo_spec fills (oList e.refs) e
      (fun p hp => mlookup_self_of_mem hnr hp) hnr
  unfold exprProcessRefs
  have hholes : ∀ k, mlookup (oList (exprPRGo (oList e.refs) e fills).holes) k = mlookup (oList e.holes) k := by
    intro k
    rw [sh]
  have halias : ∀ k, mlookup (oList (exprPRGo (oList e.refs) e fills).aliases) k = mlookup (oList e.aliases) k := by
    intro k
    rw [sa]
  refine ⟨?_, ⟨(exprPRGo_nodup fills _ e hnp hnr).1, (exprPRGo_nodup fills _ e hnp hnr).2,
    sa ▸ hna, sh ▸ hnh⟩, ?_⟩
  · intro k
    cases hk : mlookup (oList e.refs) k with
    | none =>
        obtain ⟨h1, h2⟩ := s2 k hk
        refine ⟨?_, ?_, ?_⟩
        · intro hp
          rw [h2] at hp
          obtain ⟨_, r2, r3⟩ := (hd k).1 hp
          exact ⟨h1.trans hk, (halias k).trans r2, (hholes k).trans r3⟩
        · intro hp
          rw [h1, hk] at hp
          cases hp rfl
        · intro hp
          rw [halias k] at hp
          exact (hholes k).trans ((hd k).2.2 hp)
    | some h =>
        have hpn : mlookup (oList e.params) k = none := by
          by_contra hc
          rw [((hd k).1 hc).1] at hk
          cases hk
        obtain ⟨han, hhn⟩ := (hd k).2.1 (by rw [hk]; exact fun hc => Option.noConfusion hc)
        cases hf : mlookup fills h with
        | some v =>
            obtain ⟨h1, h2⟩ := (s1 k h hk).1 v hf
            refine ⟨?_, ?_, ?_⟩
            · intro _
              exact ⟨h1, (halias k).trans han, (hholes k).trans hhn⟩
            · intro hp
              rw [h1] at hp
              cases hp rfl
            · intro hp
              rw [halias k, han] at hp
              cases hp rfl
        | none =>
            obtain ⟨h1, h2⟩ := (s1 k h hk).2 hf
            refine ⟨?_, ?_, ?_⟩
            · intro hp
              rw [h2, hpn] at hp
              cases hp rfl
            · intro _
              exact ⟨(halias k).trans han, (hholes k).trans hhn⟩
            · intro hp
              rw [halias k, han] at hp
              cases hp rfl
  · intro k hfree
    obtain ⟨f1, f2, f3, f4⟩ := hfree
    obtain ⟨h1, h2⟩ := s2 k f2
    exact ⟨h2.trans f1, h1.trans f2, (halias k).trans f3, (hholes k).trans f4⟩

/-- The builder and resolution operations of claim C3, applied to one
Expression node: the AddParam* methods acting through the current
expression and the current key, plus the two Process* resolutions. -/
inductive EOp where
  | key (k : String)
  | strVal (v : String)
  | intVal (t : String)
  | cidrVal (t : String)
  | ipVal (t : String)
  | refVal (v : String)
  | aliasVal (v : String)
  | holeVal (v : String)
  | procHoles (fills : AMap GoVal)
  | procRefs (fills : AMap GoVal)

/-- One operation applied to the current expression and current key, using
the same method bodies as the AST-level operations. -/
def execEOp (st : ExpressionNode × String) : EOp → Except ExecErr (ExpressionNode × String)
  | .key k => .ok (addParamKeyE k st.1)
  | .strVal v =>
      match setParamE st.2 (.str v) st.1 with
      | .ok e2 => .ok (e2, st.2)
      | .error er => .error er
  | .intVal t =>
      match parseIntE t with
      | .ok n =>
          match setParamE st.2 (.int n) st.1 with
          | .ok e2 => .ok (e2, st.2)
          | .error er => .error er
      | .error er => .error er
  | .cidrVal t =>
      match parseCIDRE t with
      | .ok s2 =>
          match setParamE st.2 (.str s2) st.1 with
          | .ok e2 => .ok (e2, st.2)
          | .error er => .error er
      | .error er => .error er
  | .ipVal t =>
      match parseIPE t with
      | .ok s2 =>
          match setParamE st.2 (.str s2) st.1 with
          | .ok e2 => .ok (e2, st.2)
          | .error er => .error er
      | .error er => .error er
  | .refVal v =>
      match setRefE st.2 v st.1 with
      | .ok e2 => .ok (e2, st.2)
      | .error er => .error er
  | .aliasVal v =>
      match setAliasE st.2 v st.1 with
      | .ok e2 => .ok (e2, st.2)
      | .error er => .error er
  | .holeVal v =>
      match setHoleE st.2 v st.1 with
      | .ok e2 => .ok (e2, st.2)
      | .error er => .error er
  | .procHoles fills => .ok ((exprProcessHoles st.1 fills).1, st.2)
  | .procRefs fills => .ok (exprProcessRefs st.1 fills, st.2)

/-- A sequence of operations, stopping at the first fatal error. -/
def execEOps : List EOp → (ExpressionNode × String) → Except ExecErr (ExpressionNode × String)
  | [], st => .ok st
  | op :: rest, st =>
      match execEOp st op with
      | .ok st2 => execEOps rest st2
      | .error er => .error er

/-- Whether an operation stores a value under the current key. -/
def isValOp : EOp → Bool
  | .strVal _ => true
  | .intVal _ => true
  | .cidrVal _ => true
  | .ipVal _ => true
  | .refVal _ => true
  | .aliasVal _ => true
  | .holeVal _ => true
  | _ => false

/-- The key introduced by an operation, if any. -/
def keyOf : EOp → Option String
  | .key k => some k
  | _ => none

/-- Phases of a well-keyed sequence: before the first AddParamKey, with the
slot of the current key still unfilled, and with it already filled. -/
inductive KeyPhase where
  | start
  | openSlot
  | used
deriving DecidableEq

/-- The well-keyed automaton: a value operation is allowed only directly
for a key that has not received one yet. -/
def wfFrom : KeyPhase → List EOp → Bool
  | _, [] => true
  | _, .key _ :: rest => wfFrom .openSlot rest
  | ph, op :: rest =>
      if isValOp op then
        match ph with
        | .openSlot => wfFrom .used rest
        | _ => false
      else wfFrom ph rest

/-- A well-keyed sequence: each parameter key is introduced once and stores
at most one value, and no value is stored before the first key. -/
def WellKeyed (ops : List EOp) : Prop :=
  wfFrom .start ops = true ∧ (ops.filterMap keyOf).Nodup

/-- The expression reached by the counterexample of claim C3. -/
def c3Bad : ExpressionNode :=
  { action := "", entity := "", refs := some [("k", "r")],
    params := some [("k", .str "v")], aliases := some [], holes := some [] }

/-- C3 counterexample: the operation sequence AddParamKey k, AddParamValue
v, AddParamRefValue r, a sequence of the operations listed by the claim,
leaves the key k in both Params and Refs at once. -/
theorem c3_two_value_ops_break_exclusivity :
    execEOps [.key "k", .strVal "v", .refVal "r"] (emptyExpr, "") = .ok (c3Bad, "k") ∧
    mlookup (oList c3Bad.params) "k" = some (.str "v") ∧
    mlookup (oList c3Bad.refs) "k" = some "r" ∧
    ¬ DisjointE c3Bad := by
  refine ⟨by rfl, by rfl, by rfl, ?_⟩
  intro h
  have h1 := (h "k").1 (by rw [show mlookup (oList c3Bad.params) "k" = some (.str "v") from rfl]; exact fun hc => Option.noConfusion hc)
  rw [show mlookup (oList c3Bad.refs) "k" = some "r" from rfl] at h1
  exact Option.noConfusion h1.1

/-- Writing a fresh key into Params keeps the maps disjoint and unique and
every other free key free. -/
theorem write_param_step (e : ExpressionNode) (ck : String) (val : GoVal) (m : AMap GoVal)
    (hm : e.params = some m) (hf : FreeKey e ck) (hd : DisjointE e) (hn : NodupE e) :
    DisjointE { e with params := some (mset m ck val) } ∧
    NodupE { e with params := some (mset m ck val) } ∧
    (∀ k2, k2 ≠ ck → FreeKey e k2 → FreeKey { e with params := some (mset m ck val) } k2) := by
  have hol : oList e.params = m := by rw [hm]; rfl
  refine ⟨?_, ⟨nodupk_mset _ _ (hol ▸ hn.1), hn.2.1, hn.2.2.1, hn.2.2.2⟩, ?_⟩
  · intro k
    by_cases hk : k = ck
    · subst hk
      refine ⟨?_, ?_, ?_⟩
      · intro _
        exact ⟨hf.2.1, hf.2.2.1, hf.2.2.2⟩
      · intro hp
        exact absurd hf.2.1 hp
      · intro hp
        exact absurd hf.2.2.1 hp
    · have hpk : mlookup (mset m ck val) k = mlookup (oList e.params) k := by
        rw [mlookup_mset_ne _ _ _ _ (fun hc => hk hc.symm), hol]
      refine ⟨?_, (hd k).2.1, (hd k).2.2⟩
      intro hp
      rw [show mlookup (oList ({ e with params := some (mset m ck val) } : ExpressionNode).params) k
        = mlookup (mset m ck val) k from rfl, hpk] at hp
      exact (hd k).1 hp
  · intro k2 hk2 hfk
    refine ⟨?_, hfk.2.1, hfk.2.2.1, hfk.2.2.2⟩
    show mlookup (mset m ck val) k2 = none
    rw [mlookup_mset_ne _ _ _ _ (fun hc => hk2 hc.symm), ← hol]
    exact hfk.1

/-- Writing a fresh key into Refs keeps the maps disjoint and unique and
every other free key free. -/
theorem write_ref_step (e : ExpressionNode) (ck : String) (val : String) (m : AMap String)
    (hm : e.refs = some m) (hf : FreeKey e ck) (hd : DisjointE e) (hn : NodupE e) :
    DisjointE { e with refs := some (mset m ck val) } ∧
    NodupE { e with refs := some (mset m ck val) } ∧
    (∀ k2, k2 ≠ ck → FreeKey e k2 → FreeKey { e with refs := some (mset m ck val) } k2) := by
  have hol : oList e.refs = m := by rw [hm]; rfl
  refine ⟨?_, ⟨hn.1, nodupk_mset _ _ (hol ▸ hn.2.1), hn.2.2.1, hn.2.2.2⟩, ?_⟩
  · intro k
    by_cases hk : k = ck
    · subst hk
      refine ⟨?_, ?_, ?_⟩
      · intro hp
        exact absurd hf.1 hp
      · intro _
        exact ⟨hf.2.2.1, hf.2.2.2⟩
      · intro hp
        exact absurd hf.2.2.1 hp
    · have hpk : mlookup (mset m ck val) k = mlookup (oList e.refs) k := by
        rw [mlookup_mset_ne _ _ _ _ (fun hc => hk hc.symm), hol]
      refine ⟨?_, ?_, (hd k).2.2⟩
      · intro hp
        obtain ⟨r1, r2, r3⟩ := (hd k).1 hp
        refine ⟨?_, r2, r3⟩
        show mlookup (mset m ck val) k = none
        rw [hpk]
        exact r1
      · intro hp
        rw [show mlookup (oList ({ e with refs := some (mset m ck val) } : ExpressionNode).refs) k
          = mlookup (mset m ck val) k from rfl, hpk] at hp
        exact (hd k).2.1 hp
  · intro k2 hk2 hfk
    refine ⟨hfk.1, ?_, hfk.2.2.1, hfk.2.2.2⟩
    show mlookup (mset m ck val) k2 = none
    rw [mlookup_mset_ne _ _ _ _ (fun hc => hk2 hc.symm), ← hol]
    exact hfk.2.1

/-- Writing a fresh key into Aliases keeps the maps disjoint and unique and
every other free key free. -/
theorem write_alias_step (e : ExpressionNode) (ck : String) (val : String) (m : AMap String)
    (hm : e.aliases = some m) (hf : FreeKey e ck) (hd : DisjointE e) (hn : NodupE e) :
    DisjointE { e with aliases := some (mset m ck val) } ∧
    NodupE { e with aliases := some (mset m ck val) } ∧
    (∀ k2, k2 ≠ ck → FreeKey e k2 → FreeKey { e with aliases := some (mset m ck val) } k2) := by
  have hol : oList e.aliases = m := by rw [hm]; rfl
  refine ⟨?_, ⟨hn.1, hn.2.1, nodupk_mset _ _ (hol ▸ hn.2.2.1), hn.2.2.2⟩, ?_⟩
  · intro k
    by_cases hk : k = ck
    · subst hk
      refine ⟨?_, ?_, ?_⟩
      · intro hp
        exact absurd hf.1 hp
      · intro hp
        exact absurd hf.2.1 hp
      · intro _
        exact hf.2.2.2
    · have hpk : mlookup (mset m ck val) k = mlookup (oList e.aliases) k := by
        rw [mlookup_mset_ne _ _ _ _ (fun hc => hk hc.symm), hol]
      refine ⟨?_, ?_, ?_⟩
      · intro hp
        obtain ⟨r1, r2, r3⟩ := (hd k).1 hp
        refine ⟨r1, ?_, r3⟩
        show mlookup (mset m ck val) k = none
        rw [hpk]
        exact r2
      · intro hp
        obtain ⟨r1, r2⟩ := (hd k).2.1 hp
        refine ⟨?_, r2⟩
        show mlookup (mset m ck val) k = none
        rw [hpk]
        exact r1
      · intro hp
        rw [show mlookup (oList ({ e with aliases := some (mset m ck val) } : ExpressionNode).aliases) k
          = mlookup (mset m ck val) k from rfl, hpk] at hp
        exact (hd k).2.2 hp
  · intro k2 hk2 hfk
    refine ⟨hfk.1, hfk.2.1, ?_, hfk.2.2.2⟩
    show mlookup (mset m ck val) k2 = none
    rw [mlookup_mset_ne _ _ _ _ (fun hc => hk2 hc.symm), ← hol]
    exact hfk.2.2.1

/-- Writing a fresh key into Holes keeps the maps disjoint and unique and
every other free key free. -/
theorem write_hole_step (e : ExpressionNode) (ck : String) (val : String) (m : AMap String)
    (hm : e.holes = some m) (hf : FreeKey e ck) (hd : DisjointE e) (hn : NodupE e) :
    DisjointE { e with holes := some (mset m ck val) } ∧
    NodupE { e with holes := some (mset m ck val) } ∧
    (∀ k2, k2 ≠ ck → FreeKey e k2 → FreeKey { e with holes := some (mset m ck val) } k2) := by
  have hol : oList e.holes = m := by rw [hm]; rfl
  refine ⟨?_, ⟨hn.1, hn.2.1, hn.2.2.1, nodupk_mset _ _ (hol ▸ hn.2.2.2)⟩, ?_⟩
  · intro k
    by_cases hk : k = ck
    · subst hk
      refine ⟨?_, ?_, ?_⟩
      · intro hp
        exact absurd hf.1 hp
      · intro hp
        exact absurd hf.2.1 hp
      · intro hp
        exact absurd hf.2.2.1 hp
    · have hpk : mlookup (mset m ck val) k = mlookup (oList e.holes) k := by
        rw [mlookup_mset_ne _ _ _ _ (fun hc => hk hc.symm), hol]
      refine ⟨?_, ?_, ?_⟩
      · intro hp
        obtain ⟨r1, r2, r3⟩ := (hd k).1 hp
        refine ⟨r1, r2, ?_⟩
        show mlookup (mset m ck val) k = none
        rw [hpk]
        exact r3
      · intro hp
        obtain ⟨r1, r2⟩ := (hd k).2.1 hp
        refine ⟨r1, ?_⟩
        show mlookup (mset m ck val) k = none
        rw [hpk]
        exact r2
      · intro hp
        have r := (hd k).2.2 hp
        show mlookup (mset m ck val) k = none
        rw [hpk]
        exact r
  · intro k2 hk2 hfk
    refine ⟨hfk.1, hfk.2.1, hfk.2.2.1, ?_⟩
    show mlookup (mset m ck val) k2 = none
    rw [mlookup_mset_ne _ _ _ _ (fun hc => hk2 hc.symm), ← hol]
    exact hfk.2.2.2

/-- The main induction for C3: along a well-keyed sequence the expression
keeps its maps disjoint and unique-keyed, the keys of coming AddParamKey
operations stay absent from every map, and an open slot key is absent and
never re-introduced. -/
theorem execEOps_invariant :
    ∀ (ops : List EOp) (ph : KeyPhase) (e : ExpressionNode) (ck : String),
      wfFrom ph ops = true →
      (ops.filterMap keyOf).Nodup →
      DisjointE e → NodupE e →
      (∀ k, k ∈ ops.filterMap keyOf → FreeKey e k) →
      (ph = .openSlot → FreeKey e ck ∧ ck ∉ ops.filterMap keyOf) →
      ∀ st, execEOps ops (e, ck) = .ok st → DisjointE st.1 := by
  intro ops
  induction ops with
  | nil =>
      intro ph e ck _ _ hd _ _ _ st hst
      cases hst
      exact hd
  | cons op rest ih =>
      intro ph e ck hwf hnodup hd hn hfree hopen st hst
      cases op with
      | key k =>
          have hkeys : (EOp.key k :: rest).filterMap keyOf = k :: rest.filterMap keyOf := by
            simp [List.filterMap_cons, keyOf]
          rw [hkeys] at hnodup hfree
          have hkn := List.nodup_cons.mp hnodup
          have hwf2 : wfFrom .openSlot rest = true := by
            simpa [wfFrom] using hwf
          have hstep : execEOps (EOp.key k :: rest) (e, ck) =
              execEOps rest (addParamKeyE k e) := by
            simp [execEOps, execEOp]
          rw [hstep] at hst
          by_cases hinit : e.params = none
          · have hfreek : ∀ k2, FreeKey { e with refs := some [], params := some [], aliases := some [], holes := some [] } k2 := by
              intro k2
              exact ⟨rfl, rfl, rfl, rfl⟩
            have hdisj : DisjointE { e with refs := some [], params := some [], aliases := some [], holes := some [] } := by
              intro k2
              exact ⟨fun hc => absurd rfl hc, fun hc => absurd rfl hc, fun hc => absurd rfl hc⟩
            have hnod : NodupE { e with refs := some [], params := some [], aliases := some [], holes := some [] } := by
              exact ⟨List.nodup_nil, List.nodup_nil, List.nodup_nil, List.nodup_nil⟩
            have hE : addParamKeyE k e = ({ e with refs := some [], params := some [], aliases := some [], holes := some [] }, k) := by
              simp [addParamKeyE, hinit]
            rw [hE] at hst
            exact ih .openSlot _ k hwf2 hkn.2 hdisj hnod (fun k2 _ => hfreek k2)
              (fun _ => ⟨hfreek k, hkn.1⟩) st hst
          · have : addParamKeyE k e = (e, k) := by
              simp [addParamKeyE, hinit]
            rw [this] at hst
            exact ih .openSlot e k hwf2 hkn.2 hd hn
              (fun k2 hk2 => hfree k2 (List.mem_cons_of_mem _ hk2))
              (fun _ => ⟨hfree k (List.mem_cons_self _ _), hkn.1⟩) st hst
      | procHoles fills =>
          have hkeys : (EOp.procHoles fills :: rest).filterMap keyOf = rest.filterMap keyOf := by
            simp [List.filterMap_cons, keyOf]
          rw [hkeys] at hnodup hfree
          have hwf2 : wfFrom ph rest = true := by
            simpa [wfFrom, isValOp] using hwf
          have hstep : execEOps (EOp.procHoles fills :: rest) (e, ck) =
              execEOps rest ((exprProcessHoles e fills).1, ck) := by
            simp [execEOps, execEOp]
          rw [hstep] at hst
          obtain ⟨pd, pn, pf⟩ := procHoles_preserves e fills hd hn
          exact ih ph _ ck hwf2 hnodup pd pn (fun k2 hk2 => pf k2 (hfree k2 hk2))
            (fun hph => ⟨pf ck (hopen hph).1, (hopen hph).2⟩) st hst
      | procRefs fills =>
          have hkeys : (EOp.procRefs fills :: rest).filterMap keyOf = rest.filterMap keyOf := by
            simp [List.filterMap_cons, keyOf]
          rw [hkeys] at hnodup hfree
          have hwf2 : wfFrom ph rest = true := by
            simpa [wfFrom, isValOp] using hwf
          have hstep : execEOps (EOp.procRefs fills :: rest) (e, ck) =
              execEOps rest (exprProcessRefs e fills, ck) := by
            simp [execEOps, execEOp]
          rw [hstep] at hst
          obtain ⟨pd, pn, pf⟩ := procRefs_preserves e fills hd hn
          exact ih ph _ ck hwf2 hnodup pd pn (fun k2 hk2 => pf k2 (hfree k2 hk2))
            (fun hph => ⟨pf ck (hopen hph).1, (hopen hph).2⟩) st hst
      | strVal v =>
          cases ph with
          | start => simp [wfFrom, isValOp] at hwf
          | used => simp [wfFrom, isValOp] at hwf
          | openSlot =>
              have hwf2 : wfFrom .used rest = true := by simpa [wfFrom, isValOp] using hwf
              have hkeys : (EOp.strVal v :: rest).filterMap keyOf = rest.filterMap keyOf := by
                simp [List.filterMap_cons, keyOf]
              rw [hkeys] at hnodup hfree
              obtain ⟨hfck, hckne⟩ := hopen rfl
              rw [hkeys] at hckne
              cases hm : e.params with
              | none =>
                  rw [show execEOps (EOp.strVal v :: rest) (e, ck) = .error .nilMapWrite from by
                    simp [execEOps, execEOp, setParamE, hm]] at hst
                  cases hst
              | some m =>
                  have hstep : execEOps (EOp.strVal v :: rest) (e, ck) =
                      execEOps rest ({ e with params := some (mset m ck (.str v)) }, ck) := by
                    simp [execEOps, execEOp, setParamE, hm]
                  rw [hstep] at hst
                  obtain ⟨pd, pn, pf⟩ := write_param_step e ck (.str v) m hm hfck hd hn
                  exact ih .used _ ck hwf2 hnodup pd pn
                    (fun k2 hk2 => pf k2 (fun hc => hckne (hc ▸ hk2)) (hfree k2 hk2))
                    (fun hph => nomatch hph) st hst
      | intVal t =>
          cases ph with
          | start => simp [wfFrom, isValOp] at hwf
          | used => simp [wfFrom, isValOp] at hwf
          | openSlot =>
              have hwf2 : wfFrom .used rest = true := by simpa [wfFrom, isValOp] using hwf
              have hkeys : (EOp.intVal t :: rest).filterMap keyOf = rest.filterMap keyOf := by
                simp [List.filterMap_cons, keyOf]
              rw [hkeys] at hnodup hfree
              obtain ⟨hfck, hckne⟩ := hopen rfl
              rw [hkeys] at hckne
              cases hpi : parseIntE t with
              | error er =>
                  rw [show execEOps (EOp.intVal t :: rest) (e, ck) = .error er from by
                    simp [execEOps, execEOp, hpi]] at hst
                  cases hst
              | ok n =>
                  cases hm : e.params with
                  | none =>
                      rw [show execEOps (EOp.intVal t :: rest) (e, ck) = .error .nilMapWrite from by
                        simp [execEOps, execEOp, setParamE, hpi, hm]] at hst
                      cases hst
                  | some m =>
                      have hstep : execEOps (EOp.intVal t :: rest) (e, ck) =
                          execEOps rest ({ e with params := some (mset m ck (.int n)) }, ck) := by
                        simp [execEOps, execEOp, setParamE, hpi, hm]
                      rw [hstep] at hst
                      obtain ⟨pd, pn, pf⟩ := write_param_step e ck (.int n) m hm hfck hd hn
                      exact ih .used _ ck hwf2 hnodup pd pn
                        (fun k2 hk2 => pf k2 (fun hc => hckne (hc ▸ hk2)) (hfree k2 hk2))
                        (fun hph => nomatch hph) st hst
      | cidrVal t =>
          cases ph with
          | start => simp [wfFrom, isValOp] at hwf
          | used => simp [wfFrom, isValOp] at hwf
          | openSlot =>
              have hwf2 : wfFrom .used rest = true := by simpa [wfFrom, isValOp] using hwf
              have hkeys : (EOp.cidrVal t :: rest).filterMap keyOf = rest.filterMap keyOf := by
                simp [List.filterMap_cons, keyOf]
              rw [hkeys] at hnodup hfree
              obtain ⟨hfck, hckne⟩ := hopen rfl
              rw [hkeys] at hckne
              cases hpi : parseCIDRE t with
              | error er =>
                  rw [show execEOps (EOp.cidrVal t :: rest) (e, ck) = .error er from by
                    simp [execEOps, execEOp, hpi]] at hst
                  cases hst
              | ok s2 =>
                  cases hm : e.params with
                  | none =>
                      rw [show execEOps (EOp.cidrVal t :: rest) (e, ck) = .error .nilMapWrite from by
                        simp [execEOps, execEOp, setParamE, hpi, hm]] at hst
                      cases hst
                  | some m =>
                      have hstep : execEOps (EOp.cidrVal t :: rest) (e, ck) =
                          execEOps rest ({ e with params := some (mset m ck (.str s2)) }, ck) := by
                        simp [execEOps, execEOp, setParamE, hpi, hm]
                      rw [hstep] at hst
                      obtain ⟨pd, pn, pf⟩ := write_param_step e ck (.str s2) m hm hfck hd hn
                      exact ih .used _ ck hwf2 hnodup pd pn
                        (fun k2 hk2 => pf k2 (fun hc => hckne (hc ▸ hk2)) (hfree k2 hk2))
                        (fun hph => nomatch hph) st hst
      | ipVal t =>
          cases ph with
          | start => simp [wfFrom, isValOp] at hwf
          | used => simp [wfFrom, isValOp] at hwf
          | openSlot =>
              have hwf2 : wfFrom .used rest = true := by simpa [wfFrom, isValOp] using hwf
              have hkeys : (EOp.ipVal t :: rest).filterMap keyOf = rest.filterMap keyOf := by
                simp [List.filterMap_cons, keyOf]
              rw [hkeys] at hnodup hfree
              obtain ⟨hfck, hckne⟩ := hopen rfl
              rw [hkeys] at hckne
              cases hpi : parseIPE t with
              | error er =>
                  rw [show execEOps (EOp.ipVal t :: rest) (e, ck) = .error er from by
                    simp [execEOps, execEOp, hpi]] at hst
                  cases hst
              | ok s2 =>
                  cases hm : e.params with
                  | none =>
                      rw [show execEOps (EOp.ipVal t :: rest) (e, ck) = .error .nilMapWrite from by
                        simp [execEOps, execEOp, setParamE, hpi, hm]] at hst
                      cases hst
                  | some m =>
                      have hstep : execEOps (EOp.ipVal t :: rest) (e, ck) =
                          execEOps rest ({ e with params := some (mset m ck (.str s2)) }, ck) := by
                        simp [execEOps, execEOp, setParamE, hpi, hm]
                      rw [hstep] at hst
                      obtain ⟨pd, pn, pf⟩ := write_param_step e ck (.str s2) m hm hfck hd hn
                      exact ih .used _ ck hwf2 hnodup pd pn
                        (fun k2 hk2 => pf k2 (fun hc => hckne (hc ▸ hk2)) (hfree k2 hk2))
                        (fun hph => nomatch hph) st hst
      | refVal v =>
          cases ph with
          | start => simp [wfFrom, isValOp] at hwf
          | used => simp [wfFrom, isValOp] at hwf
          | openSlot =>
              have hwf2 : wfFrom .used rest = true := by simpa [wfFrom, isValOp] using hwf
              have hkeys : (EOp.refVal v :: rest).filterMap keyOf = rest.filterMap keyOf := by
                simp [List.filterMap_cons, keyOf]
              rw [hkeys] at hnodup hfree
              obtain ⟨hfck, hckne⟩ := hopen rfl
              rw [hkeys] at hckne
              cases hm : e.refs with
              | none =>
                  rw [show execEOps (EOp.refVal v :: rest) (e, ck) = .error .nilMapWrite from by
                    simp [execEOps, execEOp, setRefE, hm]] at hst
                  cases hst
              | some m =>
                  have hstep : execEOps (EOp.refVal v :: rest) (e, ck) =
                      execEOps rest ({ e with refs := some (mset m ck v) }, ck) := by
                    simp [execEOps, execEOp, setRefE, hm]
                  rw [hstep] at hst
                  obtain ⟨pd, pn, pf⟩ := write_ref_step e ck v m hm hfck hd hn
                  exact ih .used _ ck hwf2 hnodup pd pn
                    (fun k2 hk2 => pf k2 (fun hc => hckne (hc ▸ hk2)) (hfree k2 hk2))
                    (fun hph => nomatch hph) st hst
      | aliasVal v =>
          cases ph with
          | start => simp [wfFrom, isValOp] at hwf
          | used => simp [wfFrom, isValOp] at hwf
          | openSlot =>
              have hwf2 : wfFrom .used rest = true := by simpa [wfFrom, isValOp] using hwf
              have hkeys : (EOp.aliasVal v :: rest).filterMap keyOf = rest.filterMap keyOf := by
                simp [List.filterMap_cons, keyOf]
              rw [hkeys] at hnodup hfree
              obtain ⟨hfck, hckne⟩ := hopen rfl
              rw [hkeys] at hckne
              cases hm : e.aliases with
              | none =>
                  rw [show execEOps (EOp.aliasVal v :: rest) (e, ck) = .error .nilMapWrite from by
                    simp [execEOps, execEOp, setAliasE, hm]] at hst
                  cases hst
              | some m =>
                  have hstep : execEOps (EOp.aliasVal v :: rest) (e, ck) =
                      execEOps rest ({ e with aliases := some (mset m ck v) }, ck) := by
                    simp [execEOps, execEOp, setAliasE, hm]
                  rw [hstep] at hst
                  obtain ⟨pd, pn, pf⟩ := write_alias_step e ck v m hm hfck hd hn
                  exact ih .used _ ck hwf2 hnodup pd pn
                    (fun k2 hk2 => pf k2 (fun hc => hckne (hc ▸ hk2)) (hfree k2 hk2))
                    (fun hph => nomatch hph) st hst
      | holeVal v =>
          cases ph with
          | start => simp [wfFrom, isValOp] at hwf
          | used => simp [wfFrom, isValOp] at hwf
          | openSlot =>
              have hwf2 : wfFrom .used rest = true := by simpa [wfFrom, isValOp] using hwf
              have hkeys : (EOp.holeVal v :: rest).filterMap keyOf = rest.filterMap keyOf := by
                simp [List.filterMap_cons, keyOf]
              rw [hkeys] at hnodup hfree
              obtain ⟨hfck, hckne⟩ := hopen rfl
              rw [hkeys] at hckne
              cases hm : e.holes with
              | none =>
                  rw [show execEOps (EOp.holeVal v :: rest) (e, ck) = .error .nilMapWrite from by
                    simp [execEOps, execEOp, setHoleE, hm]] at hst
                  cases hst
              | some m =>
                  have hstep : execEOps (EOp.holeVal v :: rest) (e, ck) =
                      execEOps rest ({ e with holes := some (mset m ck v) }, ck) := by
                    simp [execEOps, execEOp, setHoleE, hm]
                  rw [hstep] at hst
                  obtain ⟨pd, pn, pf⟩ := write_hole_step e ck v m hm hfck hd hn
                  exact ih .used _ ck hwf2 hnodup pd pn
                    (fun k2 hk2 => pf k2 (fun hc => hckne (hc ▸ hk2)) (hfree k2 hk2))
                    (fun hph => nomatch hph) st hst

/-- C3 amended: along every well-keyed operation sequence, in which each
parameter key is introduced by AddParamKey at most once and stores at most
one value, the four maps of the expression are pairwise key-disjoint. Every
prefix of a well-keyed sequence is itself well-keyed, so this covers every
observable point of such a sequence. -/
theorem c3_amended_key_exclusivity (ops : List EOp) (st : ExpressionNode × String)
    (hwf : WellKeyed ops) (hexec : execEOps ops (emptyExpr, "") = .ok st) :
    DisjointE st.1 := by
  apply execEOps_invariant ops .start emptyExpr "" hwf.1 hwf.2
  · intro k
    exact ⟨fun hc => absurd rfl hc, fun hc => absurd rfl hc, fun hc => absurd rfl hc⟩
  · exact ⟨List.nodup_nil, List.nodup_nil, List.nodup_nil, List.nodup_nil⟩
  · intro k _
    exact ⟨rfl, rfl, rfl, rfl⟩
  · intro hph
    cases hph
  · exact hexec

/-- Witness for C3 amended at a concrete well-keyed sequence: key a stores
an int, key b stores a ref, then the holes are processed. -/
theorem c3_amended_key_exclusivity_witness :
    WellKeyed [.key "a", .intVal "1", .key "b", .refVal "x", .procHoles []] ∧
    (∀ st, execEOps [.key "a", .intVal "1", .key "b", .refVal "x", .procHoles []]
        (emptyExpr, "") = .ok st → DisjointE st.1) :=
  ⟨⟨by decide, by decide⟩,
   fun st hst =>
     c3_amended_key_exclusivity [.key "a", .intVal "1", .key "b", .refVal "x", .procHoles []]
       st ⟨by decide, by decide⟩ hst⟩

/-- C9: after AddVarIdentifier then AddVarHoleValue on a fresh statement the
Hole map of the Var node is exactly the single entry from the identifier of
the variable to the hole name, and a ProcessHoles whose fills contain the
hole name sets the identifier value to the fill and leaves the Hole map
empty. -/
theorem c9_var_hole_binding (name h : String) :
    addVarHoleValue h (addVarIdentifier name initAST) =
      .ok { statements := [{ node := .var { i := { ident := name, val := none }, hole := [(name, h)] },
                             result := none, line := "", err := none }],
            currentStatement := some 0, currentKey := "" } ∧
    (∀ (fills : AMap GoVal) (v : GoVal), mlookup fills h = some v →
      varProcessHoles { i := { ident := name, val := none }, hole := [(name, h)] } fills =
        ({ i := { ident := name, val := some v }, hole := [] }, [(h, v)])) := by
  constructor
  · rfl
  · intro fills v hv
    simp [varProcessHoles, varPHGo, hv, mdel, mset]

/-- Witness for C9 at concrete names and fills. -/
theorem c9_var_hole_binding_witness :
    mlookup [("myip", GoVal.str "10.0.0.0/24")] "myip" = some (.str "10.0.0.0/24") ∧
    varProcessHoles { i := { ident := "ip", val := none }, hole := [("ip", "myip")] }
        [("myip", GoVal.str "10.0.0.0/24")] =
      ({ i := { ident := "ip", val := some (.str "10.0.0.0/24") }, hole := [] },
       [("myip", .str "10.0.0.0/24")]) :=
  ⟨by decide, (c9_var_hole_binding "ip" "myip").2 _ _ (by decide)⟩

/-! Deterministic rendering. -/

/-- The tail of a unique-keyed map is unique-keyed. -/
theorem nodupk_tail {α : Type} {p : String × α} {l : AMap α} (h : NodupK (p :: l)) :
    NodupK l := by
  have h2 : (p.1 :: mkeys l).Nodup := h
  exact (List.nodup_cons.mp h2).2

/-- The head key of a unique-keyed map is absent from the tail. -/
theorem nodupk_head {α : Type} {p : String × α} {l : AMap α} (h : NodupK (p :: l)) :
    p.1 ∉ mkeys l := by
  have h2 : (p.1 :: mkeys l).Nodup := h
  exact (List.nodup_cons.mp h2).1

/-- Lookup is invariant under permutation of a unique-keyed map. -/
theorem mlookup_perm {α : Type} {m1 m2 : AMap α} (hp : m1.Perm m2) (k : String) :
    NodupK m1 → mlookup m1 k = mlookup m2 k := by
  induction hp with
  | nil =>
      intro _
      rfl
  | cons a h ih =>
      intro hn
      obtain ⟨ak, av⟩ := a
      have hn2 := nodupk_tail hn
      by_cases hk : ak = k <;> simp [mlookup, hk, ih hn2]
  | swap a b l =>
      intro hn
      obtain ⟨ak, av⟩ := a
      obtain ⟨bk, bv⟩ := b
      have hne : bk ≠ ak := by
        intro hc
        apply nodupk_head hn
        rw [show mkeys ((ak, av) :: l) = ak :: mkeys l from rfl, hc]
        exact List.mem_cons_self _ _
      have hne2 : ak ≠ bk := fun hc => hne hc.symm
      by_cases hb : bk = k
      · subst hb
        simp [mlookup, hne2]
      · by_cases ha2 : ak = k <;> simp [mlookup, hb, ha2]
  | trans h12 h23 ih12 ih23 =>
      intro hn
      have hn2 : NodupK _ := ((h12.map Prod.fst).nodup_iff).mp hn
      exact (ih12 hn).trans (ih23 hn2)

/-- Sorting strings is invariant under permutation. -/
theorem sortStrings_eq_of_perm {l1 l2 : List String} (h : l1.Perm l2) :
    sortStrings l1 = sortStrings l2 :=
  List.eq_of_perm_of_sorted
    ((List.perm_insertionSort _ l1).trans (h.trans (List.perm_insertionSort _ l2).symm))
    (List.sorted_insertionSort _ l1) (List.sorted_insertionSort _ l2)

/-- sortAndMap renders the same token list for any two permutations of a
unique-keyed map. -/
theorem sortAndMap_perm {α : Type} {m1 m2 : AMap α} (hp : m1.Perm m2) (hn : NodupK m1)
    (fn : String → α → String) : sortAndMap m1 fn = sortAndMap m2 fn := by
  unfold sortAndMap
  rw [show sortStrings (mkeys m1) = sortStrings (mkeys m2) from
    sortStrings_eq_of_perm (hp.map Prod.fst)]
  apply List.map_congr_left
  intro k _
  rw [mlookup_perm hp k hn]

/-- A binding always contributes its rendered token to sortAndMap. -/
theorem mem_sortAndMap {α : Type} (m : AMap α) (fn : String → α → String) (k : String) (v : α)
    (h : mlookup m k = some v) : fn k v ∈ sortAndMap m fn := by
  unfold sortAndMap
  have hk : k ∈ mkeys m := by
    by_contra hc
    rw [(mlookup_eq_none_iff m k).mpr hc] at h
    cases h
  have hk2 : k ∈ sortStrings (mkeys m) := ((List.perm_insertionSort _ _).mem_iff).mpr hk
  exact List.mem_map.mpr ⟨k, hk2, by rw [h]⟩

/-- C7: ExpressionNode.String renders the action, the entity, and every
parameter from all four maps with their markers (ref, plain, alias, hole),
the combined token list sorted lexicographically, so two structurally equal
expressions (equal keywords, maps equal up to permutation) render to the
identical string regardless of iteration order. -/
theorem c7_rendering_sorted_canonical (e1 e2 : ExpressionNode)
    (ha : e1.action = e2.action) (he : e1.entity = e2.entity)
    (hr : (oList e1.refs).Perm (oList e2.refs)) (hrn : NodupK (oList e1.refs))
    (hp : (oList e1.params).Perm (oList e2.params)) (hpn : NodupK (oList e1.params))
    (hl : (oList e1.aliases).Perm (oList e2.aliases)) (hln : NodupK (oList e1.aliases))
    (hh : (oList e1.holes).Perm (oList e2.holes)) (hhn : NodupK (oList e1.holes)) :
    exprString e1 = exprString e2 ∧
    (∀ k v, mlookup (oList e1.refs) k = some v → (k ++ "=$" ++ v) ∈ exprTokens e1) ∧
    (∀ k v, mlookup (oList e1.params) k = some v → (k ++ "=" ++ goValString v) ∈ exprTokens e1) ∧
    (∀ k v, mlookup (oList e1.aliases) k = some v → (k ++ "=@" ++ v) ∈ exprTokens e1) ∧
    (∀ k v, mlookup (oList e1.holes) k = some v → (k ++ "=\x7b" ++ v ++ "\x7d") ∈ exprTokens e1) := by
  have ht : exprTokens e1 = exprTokens e2 := by
    unfold exprTokens
    rw [sortAndMap_perm hr hrn, sortAndMap_perm hp hpn, sortAndMap_perm hl hln,
      sortAndMap_perm hh hhn]
  refine ⟨?_, ?_, ?_, ?_, ?_⟩
  · unfold exprString
    rw [ha, he, ht]
  · intro k v hkv
    exact List.mem_append_left _ (List.mem_append_left _ (List.mem_append_left _
      (mem_sortAndMap _ _ k v hkv)))
  · intro k v hkv
    exact List.mem_append_left _ (List.mem_append_left _ (List.mem_append_right _
      (mem_sortAndMap _ _ k v hkv)))
  · intro k v hkv
    exact List.mem_append_left _ (List.mem_append_right _ (mem_sortAndMap _ _ k v hkv))
  · intro k v hkv
    exact List.mem_append_right _ (mem_sortAndMap _ _ k v hkv)

/-- First expression of the C7 witness. -/
def c7E1 : ExpressionNode :=
  { action := "create", entity := "instance",
    refs := some [("subnet", "ip"), ("vpc", "v")], params := some [("count", .int 3)],
    aliases := some [("name", "box")], holes := some [("wait", "w")] }

/-- Second expression of the C7 witness: the refs map permuted. -/
def c7E2 : ExpressionNode :=
  { action := "create", entity := "instance",
    refs := some [("vpc", "v"), ("subnet", "ip")], params := some [("count", .int 3)],
    aliases := some [("name", "box")], holes := some [("wait", "w")] }

/-- Witness for C7 at two concrete expressions differing in map order. -/
theorem c7_rendering_sorted_canonical_witness :
    (oList c7E1.refs).Perm (oList c7E2.refs) ∧ exprString c7E1 = exprString c7E2 :=
  ⟨by decide,
   (c7_rendering_sorted_canonical c7E1 c7E2 rfl rfl (by decide) (by decide) (by decide)
     (by decide) (by decide) (by decide) (by decide) (by decide)).1⟩

/-! The backtracking contract of the generated rule functions. -/

/-- The contract of a rule body: on failure, position and token index are
exactly the values held at entry; on success, the position has moved past
the (possibly empty) matched text, never backward. -/
def GoodF (f : RuleFn) : Prop :=
  ∀ s, ((f s).1 = false →
          (f s).2.position = s.position ∧ (f s).2.tokenIndex = s.tokenIndex) ∧
       ((f s).1 = true → s.position ≤ (f s).2.position)

/-- The contract of a grammar-rule function over every buffer. -/
def GoodRule (f : List Char → RuleFn) : Prop := ∀ buf, GoodF (f buf)

theorem goodF_matchDot (buf : List Char) : GoodF (matchDot buf) := by
  intro s
  cases hpk : peek? buf s.position with
  | some c => simp [matchDot, hpk, Nat.le_succ]
  | none => simp [matchDot, hpk]

theorem goodF_matchChar (buf : List Char) (c : Char) : GoodF (matchChar buf c) := by
  intro s
  cases hpk : peek? buf s.position with
  | some d =>
      by_cases hd : d = c
      · simp [matchChar, hpk, hd, Nat.le_succ]
      · simp [matchChar, hpk, hd]
  | none => simp [matchChar, hpk]

theorem goodF_matchClass (buf : List Char) (p : Char → Bool) : GoodF (matchClass buf p) := by
  intro s
  cases hpk : peek? buf s.position with
  | some d =>
      by_cases hd : p d = true
      · simp [matchClass, hpk, hd, Nat.le_succ]
      · simp [matchClass, hpk, hd]
  | none => simp [matchClass, hpk]

theorem goodF_pseq {f g : RuleFn} (hf : GoodF f) (hg : GoodF g) : GoodF (pseq f g) := by
  intro s
  rcases h1 : f s with ⟨b1, s1⟩
  cases b1 with
  | false =>
      have hr := (hf s).1
      rw [h1] at hr
      simp only [pseq, h1]
      simp only [Bool.false_eq_true, if_false]
      exact ⟨fun _ => hr rfl, fun h => absurd h (by simp)⟩
  | true =>
      have hle1 : s.position ≤ s1.position := by
        have hr := (hf s).2
        rw [h1] at hr
        exact hr rfl
      rcases h2 : g s1 with ⟨b2, s2⟩
      cases b2 with
      | false =>
          simp only [pseq, h1, h2, if_true]
          simp only [Bool.false_eq_true, if_false]
          exact ⟨fun _ => ⟨by simp, by simp⟩, fun h => absurd h (by simp)⟩
      | true =>
          have hle2 : s1.position ≤ s2.position := by
            have hr := (hg s1).2
            rw [h2] at hr
            exact hr rfl
          simp only [pseq, h1, h2, if_true]
          exact ⟨fun h => absurd h (by simp), fun _ => hle1.trans hle2⟩

theorem goodF_pchoice {f g : RuleFn} (hf : GoodF f) (hg : GoodF g) : GoodF (pchoice f g) := by
  intro s
  rcases h1 : f s with ⟨b1, s1⟩
  cases b1 with
  | true =>
      have hr := (hf s).2
      rw [h1] at hr
      simp only [pchoice, h1, if_true]
      exact ⟨fun h => absurd h (by simp), fun _ => hr rfl⟩
  | false =>
      have hrest : s1.position = s.position ∧ s1.tokenIndex = s.tokenIndex := by
        have hr := (hf s).1
        rw [h1] at hr
        exact hr rfl
      simp only [pchoice, h1]
      simp only [Bool.false_eq_true, if_false]
      constructor
      · intro h2
        have := (hg s1).1 h2
        exact ⟨this.1.trans hrest.1, this.2.trans hrest.2⟩
      · intro h2
        have := (hg s1).2 h2
        rw [← hrest.1]
        exact this

theorem goodF_pstarAux {f : RuleFn} (hf : GoodF f) :
    ∀ (fuel : Nat) (s : PState),
      (pstarAux f fuel s).1 = true ∧ s.position ≤ (pstarAux f fuel s).2.position := by
  intro fuel
  induction fuel with
  | zero =>
      intro s
      exact ⟨rfl, Nat.le_refl _⟩
  | succ n ih =>
      intro s
      rcases h1 : f s with ⟨b1, s1⟩
      cases b1 with
      | true =>
          have hle : s.position ≤ s1.position := by
            have hr := (hf s).2
            rw [h1] at hr
            exact hr rfl
          have hstep : pstarAux f (n + 1) s = pstarAux f n s1 := by
            simp [pstarAux, h1]
          rw [hstep]
          exact ⟨(ih s1).1, hle.trans (ih s1).2⟩
      | false =>
          have hpos : s1.position = s.position ∧ s1.tokenIndex = s.tokenIndex := by
            have hr := (hf s).1
            rw [h1] at hr
            exact hr rfl
          have hstep : pstarAux f (n + 1) s = (true, s1) := by
            simp [pstarAux, h1]
          rw [hstep]
          exact ⟨rfl, Nat.le_of_eq hpos.1.symm⟩

theorem goodF_pstar (buf : List Char) {f : RuleFn} (hf : GoodF f) : GoodF (pstar buf f) := by
  intro s
  refine ⟨fun h => ?_, fun _ => (goodF_pstarAux hf _ s).2⟩
  have := (goodF_pstarAux hf (buf.length + 1 - s.position) s).1
  rw [show pstar buf f s = pstarAux f (buf.length + 1 - s.position) s from rfl] at h
  rw [h] at this
  cases this

theorem goodF_pplus (buf : List Char) {f : RuleFn} (hf : GoodF f) : GoodF (pplus buf f) :=
  goodF_pseq hf (goodF_pstar buf hf)

theorem goodF_popt {f : RuleFn} (hf : GoodF f) : GoodF (popt f) := by
  intro s
  refine ⟨fun h => absurd h (by simp [popt]), fun _ => ?_⟩
  show s.position ≤ (f s).2.position
  cases hb : (f s).1 with
  | true => exact (hf s).2 hb
  | false => exact Nat.le_of_eq ((hf s).1 hb).1.symm

theorem goodF_pneg {f : RuleFn} (hf : GoodF f) : GoodF (pneg f) := by
  intro s
  rcases h1 : f s with ⟨b1, s1⟩
  cases b1 with
  | true =>
      simp only [pneg, h1, if_true]
      exact ⟨fun _ => ⟨by simp, by simp⟩, fun h => absurd h (by simp)⟩
  | false =>
      have hpos : s1.position = s.position ∧ s1.tokenIndex = s.tokenIndex := by
        have hr := (hf s).1
        rw [h1] at hr
        exact hr rfl
      simp only [pneg, h1]
      simp only [Bool.false_eq_true, if_false]
      exact ⟨fun h => absurd h (by simp), fun _ => Nat.le_of_eq hpos.1.symm⟩

theorem goodF_mkRule {r : PegRule} {body : RuleFn} (hb : GoodF body) : GoodF (mkRule r body) := by
  intro s
  rcases h1 : body s with ⟨b1, s1⟩
  cases b1 with
  | true =>
      have hr := (hb s).2
      rw [h1] at hr
      simp only [mkRule, h1, if_true]
      exact ⟨fun h => absurd h (by simp), fun _ => hr rfl⟩
  | false =>
      simp only [mkRule, h1]
      simp only [Bool.false_eq_true, if_false]
      exact ⟨fun _ => ⟨by simp, by simp⟩, fun h => absurd h (by simp)⟩

theorem goodF_capture {body : RuleFn} (hb : GoodF body) : GoodF (capture body) := by
  intro s
  rcases h1 : body s with ⟨b1, s1⟩
  cases b1 with
  | true =>
      have hr := (hb s).2
      rw [h1] at hr
      simp only [capture, h1, if_true]
      exact ⟨fun h => absurd h (by simp), fun _ => hr rfl⟩
  | false =>
      have hr := (hb s).1
      rw [h1] at hr
      simp only [capture, h1]
      simp only [Bool.false_eq_true, if_false]
      exact ⟨fun _ => hr rfl, fun h => absurd h (by simp)⟩

theorem goodF_actTok (r : PegRule) : GoodF (actTok r) := by
  intro s
  exact ⟨fun h => absurd h (by simp [actTok]), fun _ => Nat.le_refl _⟩

theorem goodF_litChars (buf : List Char) : ∀ cs : List Char, GoodF (litChars buf cs)
  | [] => fun s => ⟨fun h => absurd h (by simp [litChars]), fun _ => Nat.le_refl _⟩
  | c :: cs => goodF_pseq (goodF_matchChar buf c) (goodF_litChars buf cs)

theorem goodF_lit (buf : List Char) (str : String) : GoodF (lit buf str) :=
  goodF_litChars buf str.data

theorem good_ruleWhitespace : GoodRule ruleWhitespace := fun buf =>
  goodF_mkRule (goodF_pchoice (goodF_matchChar buf ' ') (goodF_matchChar buf '\t'))

theorem good_ruleEndOfLine : GoodRule ruleEndOfLine := fun buf =>
  goodF_mkRule (goodF_pchoice (goodF_lit buf "\r\n")
    (goodF_pchoice (goodF_matchChar buf '\n') (goodF_matchChar buf '\r')))

theorem good_ruleSpace : GoodRule ruleSpace := fun buf =>
  goodF_mkRule (goodF_pchoice (good_ruleWhitespace buf) (good_ruleEndOfLine buf))

theorem good_ruleSpacing : GoodRule ruleSpacing := fun buf =>
  goodF_mkRule (goodF_pstar buf (good_ruleSpace buf))

theorem good_ruleWhiteSpacing : GoodRule ruleWhiteSpacing := fun buf =>
  goodF_mkRule (goodF_pstar buf (good_ruleWhitespace buf))

theorem good_ruleMustWhiteSpacing : GoodRule ruleMustWhiteSpacing := fun buf =>
  goodF_mkRule (goodF_pplus buf (good_ruleWhitespace buf))

theorem good_ruleEqual : GoodRule ruleEqual := fun buf =>
  goodF_mkRule (goodF_pseq (good_ruleSpacing buf)
    (goodF_pseq (goodF_matchChar buf '=') (good_ruleSpacing buf)))

theorem good_ruleIdentifier : GoodRule ruleIdentifier := fun buf =>
  goodF_mkRule (goodF_pplus buf (goodF_matchClass buf isIdentCh))

theorem good_ruleStringValue : GoodRule ruleStringValue := fun buf =>
  goodF_mkRule (goodF_pplus buf (goodF_matchClass buf isStringCh))

theorem goodF_digitRun (buf : List Char) : GoodF (digitRun buf) :=
  goodF_pplus buf (goodF_matchClass buf isDigitCh)

theorem good_ruleCidrValue : GoodRule ruleCidrValue := fun buf =>
  goodF_mkRule (goodF_pseq (goodF_digitRun buf) (goodF_pseq (goodF_matchDot buf)
    (goodF_pseq (goodF_digitRun buf) (goodF_pseq (goodF_matchDot buf)
      (goodF_pseq (goodF_digitRun buf) (goodF_pseq (goodF_matchDot buf)
        (goodF_pseq (goodF_digitRun buf)
          (goodF_pseq (goodF_matchChar buf '/') (goodF_digitRun buf)))))))))

theorem good_ruleIpValue : GoodRule ruleIpValue := fun buf =>
  goodF_mkRule (goodF_pseq (goodF_digitRun buf) (goodF_pseq (goodF_matchDot buf)
    (goodF_pseq (goodF_digitRun buf) (goodF_pseq (goodF_matchDot buf)
      (goodF_pseq (goodF_digitRun buf)
        (goodF_pseq (goodF_matchDot buf) (goodF_digitRun buf)))))))

theorem good_ruleIntValue : GoodRule ruleIntValue := fun buf =>
  goodF_mkRule (goodF_digitRun buf)

theorem good_ruleIntRange : GoodRule ruleIntRange := fun buf =>
  goodF_mkRule (goodF_pseq (goodF_digitRun buf)
    (goodF_pseq (goodF_matchChar buf '-') (goodF_digitRun buf)))

theorem good_ruleHoleValue : GoodRule ruleHoleValue := fun buf =>
  goodF_mkRule (goodF_pseq (goodF_matchChar buf lbrace)
    (goodF_pseq (good_ruleWhiteSpacing buf)
      (goodF_pseq (goodF_capture (good_ruleIdentifier buf))
        (goodF_pseq (good_ruleWhiteSpacing buf) (goodF_matchChar buf rbrace)))))

theorem goodF_actionSwitch (buf : List Char) : GoodF (actionSwitch buf) := by
  intro s
  unfold actionSwitch
  cases peek? buf s.position with
  | none => exact goodF_lit buf "stop" s
  | some c =>
      split
      any_goals exact goodF_lit buf _ s

theorem good_actionKw : GoodRule actionKw := fun buf =>
  goodF_mkRule (goodF_pchoice (goodF_lit buf "create") (goodF_pchoice (goodF_lit buf "delete")
    (goodF_pchoice (goodF_lit buf "start") (goodF_actionSwitch buf))))

set_option maxHeartbeats 2000000 in
theorem goodF_entitySwitch (buf : List Char) : GoodF (entitySwitch buf) := by
  intro s
  unfold entitySwitch
  cases peek? buf s.position with
  | none => exact goodF_lit buf "volume" s
  | some c =>
      split
      any_goals exact goodF_lit buf _ s

theorem good_entityKw : GoodRule entityKw := fun buf =>
  goodF_mkRule (goodF_pchoice (goodF_lit buf "vpc") (goodF_pchoice (goodF_lit buf "subnet")
    (goodF_pchoice (goodF_lit buf "instance") (goodF_pchoice (goodF_lit buf "role")
      (goodF_pchoice (goodF_lit buf "securitygroup")
        (goodF_pchoice (goodF_lit buf "routetable") (goodF_entitySwitch buf)))))))

theorem goodF_refAlt (buf : List Char) : GoodF (refAlt buf) :=
  goodF_pseq (goodF_mkRule (goodF_pseq (goodF_matchChar buf '$')
    (goodF_capture (good_ruleIdentifier buf)))) (goodF_actTok .a9)

theorem goodF_aliasAlt (buf : List Char) : GoodF (aliasAlt buf) :=
  goodF_pseq (goodF_mkRule (goodF_pseq (goodF_matchChar buf '@')
    (goodF_capture (good_ruleIdentifier buf)))) (goodF_actTok .a8)

theorem goodF_holeAlt (buf : List Char) : GoodF (holeAlt buf) :=
  goodF_pseq (good_ruleHoleValue buf) (goodF_actTok .a7)

theorem goodF_stringAlt (buf : List Char) : GoodF (stringAlt buf) :=
  goodF_pseq (goodF_capture (good_ruleStringValue buf)) (goodF_actTok .a14)

theorem goodF_valueSwitch (buf : List Char) : GoodF (valueSwitch buf) := by
  intro s
  unfold valueSwitch
  cases peek? buf s.position with
  | none => exact goodF_stringAlt buf s
  | some c =>
      split
      · exact goodF_refAlt buf s
      · exact goodF_aliasAlt buf s
      · split
        · exact goodF_holeAlt buf s
        · exact goodF_stringAlt buf s
      · exact goodF_stringAlt buf s

theorem good_ruleValue : GoodRule ruleValue := fun buf =>
  goodF_mkRule (goodF_pchoice (goodF_pseq (goodF_capture (good_ruleCidrValue buf)) (goodF_actTok .a10))
    (goodF_pchoice (goodF_pseq (goodF_capture (good_ruleIpValue buf)) (goodF_actTok .a11))
      (goodF_pchoice (goodF_pseq (goodF_capture (good_ruleIntRange buf)) (goodF_actTok .a12))
        (goodF_pchoice (goodF_pseq (goodF_capture (good_ruleIntValue buf)) (goodF_actTok .a13))
          (goodF_valueSwitch buf)))))

theorem good_ruleParam : GoodRule ruleParam := fun buf =>
  goodF_mkRule (goodF_pseq (goodF_capture (good_ruleIdentifier buf)) (goodF_pseq (goodF_actTok .a6)
    (goodF_pseq (good_ruleEqual buf) (goodF_pseq (good_ruleValue buf) (good_ruleWhiteSpacing buf)))))

theorem good_ruleParams : GoodRule ruleParams := fun buf =>
  goodF_mkRule (goodF_pplus buf (good_ruleParam buf))

theorem good_ruleExpr : GoodRule ruleExpr := fun buf =>
  goodF_mkRule (goodF_pseq (goodF_capture (good_actionKw buf)) (goodF_pseq (goodF_actTok .a3)
    (goodF_pseq (good_ruleMustWhiteSpacing buf) (goodF_pseq (goodF_capture (good_entityKw buf))
      (goodF_pseq (goodF_actTok .a4)
        (goodF_pseq (goodF_popt (goodF_pseq (good_ruleMustWhiteSpacing buf) (good_ruleParams buf)))
          (goodF_actTok .a5)))))))

theorem good_ruleVarValue : GoodRule ruleVarValue := fun buf =>
  goodF_mkRule (goodF_pchoice (goodF_pseq (good_ruleHoleValue buf) (goodF_actTok .a15))
    (goodF_pchoice (goodF_pseq (goodF_capture (good_ruleCidrValue buf)) (goodF_actTok .a16))
      (goodF_pchoice (goodF_pseq (goodF_capture (good_ruleIpValue buf)) (goodF_actTok .a17))
        (goodF_pchoice (goodF_pseq (goodF_capture (good_ruleIntRange buf)) (goodF_actTok .a18))
          (goodF_pchoice (goodF_pseq (goodF_capture (good_ruleIntValue buf)) (goodF_actTok .a19))
            (goodF_pseq (goodF_capture (good_ruleStringValue buf)) (goodF_actTok .a20)))))))

theorem good_ruleVarKw : GoodRule ruleVarKw := fun buf =>
  goodF_mkRule (goodF_pseq (good_ruleSpacing buf)
    (goodF_pseq (goodF_lit buf "var") (good_ruleSpacing buf)))

theorem good_ruleVarDeclaration : GoodRule ruleVarDeclaration := fun buf =>
  goodF_mkRule (goodF_pseq (good_ruleVarKw buf) (goodF_pseq (goodF_capture (good_ruleIdentifier buf))
    (goodF_pseq (goodF_actTok .a0) (goodF_pseq (good_ruleEqual buf)
      (goodF_pseq (good_ruleVarValue buf) (goodF_actTok .a1))))))

theorem good_ruleDeclaration : GoodRule ruleDeclaration := fun buf =>
  goodF_mkRule (goodF_pseq (goodF_capture (good_ruleIdentifier buf)) (goodF_pseq (goodF_actTok .a2)
    (goodF_pseq (good_ruleEqual buf) (good_ruleExpr buf))))

theorem goodF_commentTail (buf : List Char) : GoodF (commentTail buf) :=
  goodF_pstar buf (goodF_pseq (goodF_pneg (good_ruleEndOfLine buf)) (goodF_matchDot buf))

theorem good_ruleComment : GoodRule ruleComment := fun buf =>
  goodF_mkRule (goodF_pchoice (goodF_pseq (goodF_matchChar buf '#') (goodF_commentTail buf))
    (goodF_pseq (goodF_matchChar buf '/') (goodF_pseq (goodF_matchChar buf '/')
      (goodF_pseq (goodF_commentTail buf) (goodF_actTok .a21)))))

theorem good_ruleStatement : GoodRule ruleStatement := fun buf =>
  goodF_mkRule (goodF_pseq (good_ruleSpacing buf) (goodF_pseq (goodF_pchoice (good_ruleVarDeclaration buf)
    (goodF_pchoice (good_ruleExpr buf) (goodF_pchoice (good_ruleDeclaration buf) (good_ruleComment buf))))
    (goodF_pseq (good_ruleSpacing buf) (goodF_pstar buf (good_ruleEndOfLine buf)))))

theorem good_ruleEndOfFile : GoodRule ruleEndOfFile := fun buf =>
  goodF_mkRule (goodF_pneg (goodF_matchDot buf))

theorem good_ruleScript : GoodRule ruleScript := fun buf =>
  goodF_mkRule (goodF_pseq (good_ruleSpacing buf)
    (goodF_pseq (goodF_pplus buf (good_ruleStatement buf)) (good_ruleEndOfFile buf)))

/-- C6: every grammar-rule function of the generated parser restores both
the position and the token index to their entry values whenever it returns
failure, and on success leaves the position at the end of the matched text,
never before the entry position. The fifteen conjuncts cover every function
installed in the rules table; the remaining grammar productions are inlined
into Script and Expr and are covered through them. -/
theorem c6_rules_restore_on_failure :
    GoodRule ruleScript ∧ GoodRule ruleExpr ∧ GoodRule ruleIdentifier ∧
    GoodRule ruleStringValue ∧ GoodRule ruleCidrValue ∧ GoodRule ruleIpValue ∧
    GoodRule ruleIntValue ∧ GoodRule ruleIntRange ∧ GoodRule ruleHoleValue ∧
    GoodRule ruleSpacing ∧ GoodRule ruleWhiteSpacing ∧ GoodRule ruleMustWhiteSpacing ∧
    GoodRule ruleEqual ∧ GoodRule ruleWhitespace ∧ GoodRule ruleEndOfLine :=
  ⟨good_ruleScript, good_ruleExpr, good_ruleIdentifier, good_ruleStringValue,
   good_ruleCidrValue, good_ruleIpValue, good_ruleIntValue, good_ruleIntRange,
   good_ruleHoleValue, good_ruleSpacing, good_ruleWhiteSpacing, good_ruleMustWhiteSpacing,
   good_ruleEqual, good_ruleWhitespace, good_ruleEndOfLine⟩

/-- Witness for C6: the IntValue rule fails on a letter and has restored
position and token index at a concrete state. -/
theorem c6_rules_restore_on_failure_witness :
    (ruleIntValue ['a'] initPState).1 = false ∧
    (ruleIntValue ['a'] initPState).2.position = initPState.position ∧
    (ruleIntValue ['a'] initPState).2.tokenIndex = initPState.tokenIndex :=
  ⟨by decide,
   ((c6_rules_restore_on_failure.2.2.2.2.2.2.1 ['a'] initPState).1 (by decide)).1,
   ((c6_rules_restore_on_failure.2.2.2.2.2.2.1 ['a'] initPState).1 (by decide)).2⟩

set_option maxRecDepth 100000 in
/-- C4: evaluation at the failing input. Parsing the Var-with-hole source
succeeds and builds the expected AST, VarNode.String renders it with the
nil form because the String method ignores the Hole map, and re-parsing
that rendering fails, so the round-trip render-parse-render is undefined on
it. -/
theorem c4_var_hole_breaks_roundtrip :
    pipeline "var x = \x7bh\x7d" = .ok c4AST ∧
    astString c4AST = "var x = <nil>" ∧
    isParseFail (pipeline "var x = <nil>") = true := by
  exact ⟨rfl, rfl, rfl⟩

end Awless
